import Mathlib

/-!
Verification development for the obsidian-image-link-updater plugin
(`src/main.js`).  The link-rewriting engine, the unique-path generator and
the cut/paste batch logic are shallowly embedded below.  Strings are
modelled as `List Char`; the JavaScript regular expressions built in
`updateImageLinks` / `updateImageLinksByFilename` are embedded as explicit
backtracking matchers that follow the semantics of the concrete patterns
(`gi` flags: global scan, case-insensitive comparison of literals).  The
host's `normalizePath` (slash normalisation, strip leading/trailing
slashes) and JavaScript's `encodeURI` are modelled directly.
-/

namespace ImageLinkUpdater

/-- Case-insensitive character comparison, modelling the regex `i` flag
(ASCII case folding, as produced by `Char.toLower`). -/
def ciEq (a b : Char) : Bool := a == b || a.toLower == b.toLower

/-- Characters the regex `.` does not match (JavaScript line terminators). -/
def lineTerm (c : Char) : Bool :=
  c = '\n' || c = '\r' || c = '\u2028' || c = '\u2029'

/-- Match a literal (case-insensitively) as a prefix; returns the consumed
actual characters of the subject and the remainder. -/
def ciPrefixC : List Char → List Char → Option (List Char × List Char)
  | [], s => some ([], s)
  | _ :: _, [] => none
  | p :: ps, c :: cs =>
    if ciEq p c then (ciPrefixC ps cs).map (fun x => (c :: x.1, x.2)) else none

/-- Elementwise case-insensitive list equality. -/
def ciListEq : List Char → List Char → Bool
  | [], [] => true
  | [], _ :: _ => false
  | _ :: _, [] => false
  | a :: asx, b :: bs => ciEq a b && ciListEq asx bs

/-! ### Host path and URI helpers -/

def isSlashChar (c : Char) : Bool := c = '/' || c = '\\'

/-- Collapse every run of `/` or `\` characters into a single `/`. -/
def collapseSlashes : List Char → List Char
  | [] => []
  | c :: cs =>
    if isSlashChar c then
      match collapseSlashes cs with
      | '/' :: r => '/' :: r
      | r => '/' :: r
    else c :: collapseSlashes cs

def dropSlashes (l : List Char) : List Char := l.dropWhile (fun c => c = '/')

/-- Model of the host application's `normalizePath`: backslashes become
slashes, runs of slashes collapse, leading and trailing slashes are
stripped, and the empty result becomes `/`. -/
def normalizePathL (s : List Char) : List Char :=
  let t := dropSlashes (collapseSlashes s)
  let t2 := (dropSlashes t.reverse).reverse
  if t2.isEmpty then ['/'] else t2

def normalizePath (s : String) : String := String.mk (normalizePathL s.data)

/-- Characters JavaScript's `encodeURI` leaves unescaped
(alphanumerics, marks and URI reserved characters). -/
def uriUnescapedChar (c : Char) : Bool :=
  ('A' ≤ c && c ≤ 'Z') || ('a' ≤ c && c ≤ 'z') || ('0' ≤ c && c ≤ '9') ||
  c = '-' || c = '_' || c = '.' || c = '!' || c = '~' || c = '*' ||
  c = '\'' || c = '(' || c = ')' || c = ';' || c = '/' || c = '?' ||
  c = ':' || c = '@' || c = '&' || c = '=' || c = '+' || c = '$' ||
  c = ',' || c = '#'

/-- UTF-8 bytes of a code point. -/
def utf8BytesOf (c : Char) : List Nat :=
  let n := c.toNat
  if n < 128 then [n]
  else if n < 2048 then [192 + n / 64, 128 + n % 64]
  else if n < 65536 then [224 + n / 4096, 128 + (n / 64) % 64, 128 + n % 64]
  else [240 + n / 262144, 128 + (n / 4096) % 64, 128 + (n / 64) % 64, 128 + n % 64]

def hexDigitChar (n : Nat) : Char :=
  if n < 10 then Char.ofNat (48 + n) else Char.ofNat (55 + n)

/-- Model of JavaScript's `encodeURI`, applied characterwise. -/
def encodeURIChar (c : Char) : List Char :=
  if uriUnescapedChar c then [c]
  else ((utf8BytesOf c).map (fun b => ['%', hexDigitChar (b / 16), hexDigitChar (b % 16)])).flatten

def encodeURIL (s : List Char) : List Char := (s.map encodeURIChar).flatten

/-- The characters after the last `/`, i.e. `path.split('/').pop()`. -/
def lastSegment (s : List Char) : List Char :=
  s.foldl (fun acc c => if c = '/' then [] else acc ++ [c]) []

/-- `ensureLeadingSlash` from the source: normalize, then prefix `/` unless
already present. -/
def ensureLeadingSlashL (p : List Char) : List Char :=
  let n := normalizePathL p
  match n with
  | '/' :: _ => n
  | _ => '/' :: n

/-! ### The four match rules of the rewriter

`mdFull` is the pattern
`!\[(.*?)\]\(<?(?:/P|/Pe|P|Pe)>?\)`, `mdByName` is
`!\[(.*?)\]\(<?[^)]*(?:N|Ne)[^)]*>?\)`, `wikiFull` is
`!\[\[(?:[^\]]*?)P\]\]` and `wikiByName` is `!\[\[[^\]]*N\]\]`
(all with flags `gi`; `escapeRegExp` makes the interpolated
variants literal, which the matchers below realise by comparing the
variant characters directly).  Each matcher, applied at a position,
returns `(matched, altCapture, rest)` following the backtracking
semantics of the pattern. -/

/-- The regex suffix `>?\)`: an optional `>` then a literal `)`. -/
def closeParen (s : List Char) : Option (List Char × List Char) :=
  match s with
  | ')' :: r => some ([')'], r)
  | '>' :: ')' :: r => some (['>', ')'], r)
  | _ => none

/-- Try one alternative of `(?:/P|/Pe|P|Pe)` followed by `>?\)`. -/
def tryLit (lit : List Char) (s : List Char) : Option (List Char × List Char) :=
  match ciPrefixC lit s with
  | some x =>
    match closeParen x.2 with
    | some y => some (x.1 ++ y.1, y.2)
    | none => none
  | none => none

/-- The alternation `(?:/P|/Pe|P|Pe)>?\)` with regex alternative order. -/
def mdPathCore (P Pe : List Char) (s : List Char) : Option (List Char × List Char) :=
  (tryLit ('/' :: P) s) <|> (tryLit ('/' :: Pe) s) <|> (tryLit P s) <|> (tryLit Pe s)

/-- `<?(?:/P|/Pe|P|Pe)>?\)`: greedy optional `<` with backtracking. -/
def mdFullTail (P Pe : List Char) (s : List Char) : Option (List Char × List Char) :=
  match s with
  | '<' :: cs =>
    (match mdPathCore P Pe cs with
     | some x => some ('<' :: x.1, x.2)
     | none => mdPathCore P Pe s)
  | _ => mdPathCore P Pe s

/-- The regex piece `[^)]*>?\)` after the name: consume up to and
including the next `)` (the optional `>` is absorbed by `[^)]*`). -/
def consumeToParen : List Char → Option (List Char × List Char)
  | [] => none
  | c :: cs =>
    if c = ')' then some ([c], cs)
    else (consumeToParen cs).map (fun x => (c :: x.1, x.2))

/-- `(?:N|Ne)[^)]*>?\)` at the current position. -/
def tryName (N Ne : List Char) (s : List Char) : Option (List Char × List Char) :=
  (match ciPrefixC N s with
   | some x => (consumeToParen x.2).map (fun y => (x.1 ++ y.1, y.2))
   | none => none)
  <|>
  (match ciPrefixC Ne s with
   | some x => (consumeToParen x.2).map (fun y => (x.1 ++ y.1, y.2))
   | none => none)

/-- `[^)]*(?:N|Ne)[^)]*>?\)`: the greedy star prefers the deepest
position, backtracking towards the current one. -/
def mdNameCore (N Ne : List Char) : List Char → Option (List Char × List Char)
  | [] => tryName N Ne []
  | c :: cs =>
    if c = ')' then tryName N Ne (c :: cs)
    else ((mdNameCore N Ne cs).map (fun x => (c :: x.1, x.2))) <|> tryName N Ne (c :: cs)

/-- `<?[^)]*(?:N|Ne)[^)]*>?\)`. -/
def mdNameTail (N Ne : List Char) (s : List Char) : Option (List Char × List Char) :=
  match s with
  | '<' :: cs =>
    (match mdNameCore N Ne cs with
     | some x => some ('<' :: x.1, x.2)
     | none => mdNameCore N Ne s)
  | _ => mdNameCore N Ne s

/-- The continuation `\]\(` followed by the tail pattern, attempted at
the current position. -/
def mdAltHere (tail : List Char → Option (List Char × List Char)) (s : List Char) :
    Option (List Char × List Char) :=
  match s with
  | ']' :: '(' :: s2 => (tail s2).map (fun x => (']' :: '(' :: x.1, x.2))
  | _ => none

/-- The lazy alt capture `(.*?)` of the Markdown patterns: at each
position first try `\](` followed by the tail, else consume one
non-line-terminator character into the capture. Returns
`(altCapture, consumedAfterAlt, rest)`. -/
def mdAltLoop (tail : List Char → Option (List Char × List Char)) :
    List Char → Option (List Char × List Char × List Char)
  | [] => none
  | c :: cs =>
    match mdAltHere tail (c :: cs) with
    | some x => some ([], x.1, x.2)
    | none =>
      if lineTerm c then none
      else (mdAltLoop tail cs).map (fun x => (c :: x.1, x.2.1, x.2.2))

/-- A Markdown-form match attempt at the current position. -/
def mdFindAt (tail : List Char → Option (List Char × List Char)) (s : List Char) :
    Option (List Char × List Char × List Char) :=
  match s with
  | '!' :: '[' :: s2 =>
    (match mdAltLoop tail s2 with
     | some x => some ('!' :: '[' :: (x.1 ++ x.2.1), x.1, x.2.2)
     | none => none)
  | _ => none

def mdFullFind (P Pe : List Char) (s : List Char) : Option (List Char × List Char × List Char) :=
  mdFindAt (mdFullTail P Pe) s

def mdByNameFind (N Ne : List Char) (s : List Char) : Option (List Char × List Char × List Char) :=
  mdFindAt (mdNameTail N Ne) s

/-- `L\]\]` at the current position (shared tail of the wiki rules). -/
def wikiTryFull (L : List Char) (s : List Char) : Option (List Char × List Char) :=
  match ciPrefixC L s with
  | some x =>
    (match x.2 with
     | ']' :: ']' :: r => some (x.1 ++ [']', ']'], r)
     | _ => none)
  | none => none

/-- `(?:[^\]]*?)P\]\]`: lazy star, so the earliest position wins. -/
def wikiLazy (P : List Char) : List Char → Option (List Char × List Char)
  | [] => wikiTryFull P []
  | c :: cs =>
    (match wikiTryFull P (c :: cs) with
     | some x => some x
     | none => if c = ']' then none else (wikiLazy P cs).map (fun x => (c :: x.1, x.2)))

/-- `[^\]]*N\]\]`: greedy star, so the deepest position wins,
backtracking towards the current one. -/
def wikiGreedy (N : List Char) : List Char → Option (List Char × List Char)
  | [] => wikiTryFull N []
  | c :: cs =>
    if c = ']' then wikiTryFull N (c :: cs)
    else ((wikiGreedy N cs).map (fun x => (c :: x.1, x.2))) <|> wikiTryFull N (c :: cs)

/-- A wiki-form match attempt (`!\[\[` then the inner pattern). -/
def wikiFindAt (inner : List Char → Option (List Char × List Char)) (s : List Char) :
    Option (List Char × List Char × List Char) :=
  match s with
  | '!' :: '[' :: '[' :: s2 =>
    (match inner s2 with
     | some x => some ('!' :: '[' :: '[' :: x.1, [], x.2)
     | none => none)
  | _ => none

def wikiFullFind (P : List Char) (s : List Char) : Option (List Char × List Char × List Char) :=
  wikiFindAt (wikiLazy P) s

def wikiByNameFind (N : List Char) (s : List Char) : Option (List Char × List Char × List Char) :=
  wikiFindAt (wikiGreedy N) s

/-! ### The global replace -/

/-- The replacement text of the Markdown rules: the callback
`(_m, alt) => ` then the template `![alt](absMd)`. -/
def mdRender (absMd : List Char) (alt : List Char) : List Char :=
  '!' :: '[' :: (alt ++ ']' :: '(' :: (absMd ++ [')']))

/-- The replacement text of the wiki rules: `![[abs]]` (no capture). -/
def wikiRender (abs : List Char) (_alt : List Char) : List Char :=
  '!' :: '[' :: '[' :: (abs ++ [']', ']'])

/-- Fuelled global replace, modelling `String.prototype.replace` with a
`g` regex and a callback that records that it ran (the `changed` flag).
The fuel is instantiated with the subject length, which suffices because
every match consumes at least one character. -/
def replF (find : List Char → Option (List Char × List Char × List Char))
    (render : List Char → List Char) : Nat → List Char → List Char × Bool
  | _, [] => ([], false)
  | 0, s => (s, false)
  | n + 1, c :: cs =>
    match find (c :: cs) with
    | some x =>
      let t := replF find render n x.2.2
      (render x.2.1 ++ t.1, true)
    | none =>
      let t := replF find render n cs
      (c :: t.1, t.2)

/-- One `.replace(pattern, callback)` pass over a document. -/
def stageRun (find : List Char → Option (List Char × List Char × List Char))
    (render : List Char → List Char) (s : List Char) : List Char × Bool :=
  replF find render s.length s

/-! ### The rewriter entry points (from `updateImageLinks` and
`updateImageLinksByFilename`) -/

/-- The per-document body of `updateImageLinks`: the four patterns are
applied in source order (mdFull, mdByName, wikiFull, wikiByName), and the
`changed` flag records whether any callback ran. -/
def updateImageLinksDoc (oldPath newPath content : List Char) : List Char × Bool :=
  let oldFileName := lastSegment oldPath
  let oldPathNorm := normalizePathL oldPath
  let oldPathEnc := encodeURIL oldPathNorm
  let oldNameEnc := encodeURIL oldFileName
  let abs := ensureLeadingSlashL newPath
  let absMd := encodeURIL abs
  let r1 := stageRun (mdFullFind oldPathNorm oldPathEnc) (mdRender absMd) content
  let r2 := stageRun (mdByNameFind oldFileName oldNameEnc) (mdRender absMd) r1.1
  let r3 := stageRun (wikiFullFind oldPathNorm) (wikiRender abs) r2.1
  let r4 := stageRun (wikiByNameFind oldFileName) (wikiRender abs) r3.1
  (r4.1, ((r1.2 || r2.2) || r3.2) || r4.2)

/-- `updateImageLinks` over the corpus of Markdown documents: each
document is read and written back only when its `changed` flag is set. -/
def updateImageLinks (oldPath newPath : String) (corpus : List (String × String)) :
    List (String × String) :=
  corpus.map (fun d =>
    let r := updateImageLinksDoc oldPath.data newPath.data d.2.data
    (d.1, if r.2 then String.mk r.1 else d.2))

/-- The per-document body of `updateImageLinksByFilename` (create-event
fallback): only the two by-name rules run. -/
def updateImageLinksByFilenameDoc (fileName newPath content : List Char) : List Char × Bool :=
  let nameEnc := encodeURIL fileName
  let abs := ensureLeadingSlashL newPath
  let absMd := encodeURIL abs
  let r1 := stageRun (mdByNameFind fileName nameEnc) (mdRender absMd) content
  let r2 := stageRun (wikiByNameFind fileName) (wikiRender abs) r1.1
  (r2.1, r1.2 || r2.2)

def updateImageLinksByFilename (fileName newPath : String) (corpus : List (String × String)) :
    List (String × String) :=
  corpus.map (fun d =>
    let r := updateImageLinksByFilenameDoc fileName.data newPath.data d.2.data
    (d.1, if r.2 then String.mk r.1 else d.2))

/-! ### isImage and the rename-event handler -/

def asciiLower (s : String) : String := String.mk (s.data.map Char.toLower)

/-- `isImage` from the source: the file extension, lowercased, is one of
the seven image extensions. -/
def isImage (extension : String) : Bool :=
  (["png", "jpg", "jpeg", "gif", "bmp", "svg", "webp"]).contains (asciiLower extension)

/-- A vault file as the handlers see it (the tagged `TFile` variant). -/
structure PFile where
  path : String
  name : String
  extension : String
deriving Repr, DecidableEq

/-- The `rename` event handler body: rewrite links only when the renamed
file is an image. -/
def onRenameEvent (file : PFile) (oldPath : String) (corpus : List (String × String)) :
    List (String × String) :=
  if isImage file.extension then updateImageLinks oldPath file.path corpus else corpus

/-! ### The unique-path generator -/

/-- The candidate built for a given attempt counter:
`normalizePath(folderPrefix + base + " " + attempt + suffix)`. -/
def nextCandidate (base ext folder : String) (attempt : Nat) : String :=
  normalizePath ((if folder = "" then "" else folder ++ "/") ++
    (base ++ " " ++ Nat.repr attempt ++ (if ext = "" then "" else "." ++ ext)))

/-- Fuelled model of `uniquePath`'s probe loop (the JavaScript loop has no
bound and diverges when `existsFn` never answers false; `none` marks
exhausted fuel). -/
def uniquePathFuel (existsFn : String → Bool) (base ext folder : String) :
    Nat → String → Nat → Option String
  | 0, _, _ => none
  | n + 1, candidate, attempt =>
    if existsFn candidate then
      uniquePathFuel existsFn base ext folder n (nextCandidate base ext folder attempt) (attempt + 1)
    else some candidate

/-- The sequence of candidates `uniquePath` probes: the desired path, then
`base 1`, `base 2`, …. -/
def uniquePathCand (dest base ext folder : String) : Nat → String
  | 0 => dest
  | k + 1 => nextCandidate base ext folder (k + 1)

/-- `uniquePath` terminates on these arguments: some fuel suffices. -/
def uniquePathTerminates (existsFn : String → Bool) (dest base ext folder : String) : Prop :=
  ∃ n p, uniquePathFuel existsFn base ext folder n dest 1 = some p

/-! ### Cut/paste batch (`pasteFiles`) -/

/-- The host collaborators used by `pasteFiles`, abstracted as oracles:
`vaultExists` is `getAbstractFileByPath(...) != null`, `adapterExists` is
`vault.adapter.exists`, and `moveOk oldPath newPath` tells whether the
`renameFile` move primitive succeeds (a false answer is the thrown,
caught, per-file error). -/
structure Host where
  vaultExists : String → Bool
  adapterExists : String → Bool
  moveOk : String → String → Bool

/-- `getFileNameAndExtension` from the source (split at the last dot). -/
def lastDotSplit : List Char → Option (List Char × List Char)
  | [] => none
  | c :: cs =>
    match lastDotSplit cs with
    | some x => some (c :: x.1, x.2)
    | none => if c = '.' then some ([], cs) else none

def getFileNameAndExtension (fileName : String) : String × String :=
  match lastDotSplit fileName.data with
  | some x => (String.mk x.1, String.mk x.2)
  | none => (fileName, "")

/-- The destination path computed for one pasted file: the target folder
plus the file name, run through `uniquePath` when a file already exists
there.  `none` models the unbounded probe loop not returning within the
given fuel (in the source the loop would simply not return). -/
def targetPathFor (host : Host) (folderPath : String) (fuel : Nat) (f : PFile) : Option String :=
  let newPath := normalizePath (folderPath ++ "/" ++ f.name)
  if host.vaultExists newPath then
    let ne := getFileNameAndExtension f.name
    uniquePathFuel host.adapterExists ne.1 ne.2 folderPath fuel newPath 1
  else some newPath

/-- The paste-batch state: the pending cut selection, the document
corpus, the log of performed moves, and the success/failure counters. -/
structure PasteState where
  cutFiles : List PFile
  docs : List (String × String)
  moved : List (String × String)
  successCount : Nat
  failCount : Nat
deriving Repr, DecidableEq

/-- The body of `pasteFiles`' per-file `try` block: compute the
destination, move (a failed move is caught and counted), and rewrite the
links when the moved file is an image. -/
def pasteOne (host : Host) (folderPath : String) (fuel : Nat)
    (st : PasteState) (f : PFile) : PasteState :=
  match targetPathFor host folderPath fuel f with
  | none => st
  | some newPath =>
    if host.moveOk f.path newPath then
      { st with
        docs := if isImage f.extension then updateImageLinks f.path newPath st.docs else st.docs,
        moved := st.moved ++ [(f.path, newPath)],
        successCount := st.successCount + 1 }
    else { st with failCount := st.failCount + 1 }

/-- `pasteFiles`: early return on an empty selection, otherwise process
every cut file independently and clear the selection unconditionally. -/
def pasteFiles (host : Host) (folderPath : String) (fuel : Nat) (st : PasteState) : PasteState :=
  if st.cutFiles.isEmpty then st
  else
    let st2 := st.cutFiles.foldl (pasteOne host folderPath fuel) st
    { st2 with cutFiles := [] }

/-- Whether the move primitive succeeds for one pasted file (its
destination resolves and `moveOk` accepts it). -/
def moveSucceeds (host : Host) (folderPath : String) (fuel : Nat) (f : PFile) : Bool :=
  match targetPathFor host folderPath fuel f with
  | none => false
  | some np => host.moveOk f.path np

/-- The document-store effect of one successfully moved file: links are
rewritten for images, other files leave the corpus untouched. -/
def pasteRewrite (host : Host) (folderPath : String) (fuel : Nat)
    (docs : List (String × String)) (f : PFile) : List (String × String) :=
  match targetPathFor host folderPath fuel f with
  | none => docs
  | some np => if isImage f.extension then updateImageLinks f.path np docs else docs

/-! ### Specification-side notions used by the theorems -/

/-- A matcher is sound when a reported match is a partition of the
subject into the (nonempty) matched text and the remainder. -/
def FindSound (find : List Char → Option (List Char × List Char × List Char)) : Prop :=
  ∀ s m a r, find s = some (m, a, r) → s = m ++ r ∧ m ≠ []

/-- `Rewrites find render s t` says that `t` is obtained from `s` by the
left-to-right global scan of `find`, replacing every matched occurrence
`m` (with capture `alt`) by `render alt` and keeping every other
character. -/
inductive Rewrites (find : List Char → Option (List Char × List Char × List Char))
    (render : List Char → List Char) : List Char → List Char → Prop
  | nil : Rewrites find render [] []
  | skip (c : Char) (s t : List Char) : find (c :: s) = none → Rewrites find render s t →
      Rewrites find render (c :: s) (c :: t)
  | repl (s m alt r t : List Char) : find s = some (m, alt, r) → s = m ++ r →
      Rewrites find render r t → Rewrites find render s (render alt ++ t)

/-- After one pass of `updateImageLinks`, this property states that the
output was produced from the input by the four sequential
occurrence-rewriting scans of the source, in source order. -/
def UpdatePassRel (oldPath newPath content out : List Char) : Prop :=
  let oldFileName := lastSegment oldPath
  let oldPathNorm := normalizePathL oldPath
  let oldPathEnc := encodeURIL oldPathNorm
  let oldNameEnc := encodeURIL oldFileName
  let abs := ensureLeadingSlashL newPath
  let absMd := encodeURIL abs
  ∃ t1 t2 t3,
    Rewrites (mdFullFind oldPathNorm oldPathEnc) (mdRender absMd) content t1 ∧
    Rewrites (mdByNameFind oldFileName oldNameEnc) (mdRender absMd) t1 t2 ∧
    Rewrites (wikiFullFind oldPathNorm) (wikiRender abs) t2 t3 ∧
    Rewrites (wikiByNameFind oldFileName) (wikiRender abs) t3 out

/-- A consumed tail of a Markdown rule always closes with `)`. -/
def EndsParen (c : List Char) : Prop := ∃ m0, c = m0 ++ [')']

/-! ### Soundness of the matchers -/

theorem ciEq_refl (c : Char) : ciEq c c = true := by
  simp [ciEq]

theorem orElse_some {α : Type} (x : α) (b : Option α) : ((some x : Option α) <|> b) = some x :=
  rfl

theorem orElse_none {α : Type} (b : Option α) : ((none : Option α) <|> b) = b :=
  rfl

theorem orElse_eq_some {α : Type} {a b : Option α} {x : α} (h : (a <|> b) = some x) :
    a = some x ∨ (a = none ∧ b = some x) := by
  cases a <;> simp_all [Option.orElse]

theorem ciPrefixC_sound : ∀ p s c r, ciPrefixC p s = some (c, r) → s = c ++ r := by
  intro p
  induction p with
  | nil => intro s c r h; simp [ciPrefixC] at h; simp [h.1, h.2]
  | cons a ps ih =>
    intro s c r h
    cases s with
    | nil => simp [ciPrefixC] at h
    | cons b bs =>
      simp [ciPrefixC] at h
      obtain ⟨-, y, hy, hc⟩ := h
      subst hc
      simp [ih bs y r hy]

theorem ciPrefixC_self : ∀ l r, ciPrefixC l (l ++ r) = some (l, r) := by
  intro l
  induction l with
  | nil => intro r; simp [ciPrefixC]
  | cons a ps ih => intro r; simp [ciPrefixC, ciEq_refl, ih r]

theorem ciPrefixC_ci : ∀ p s c r, ciPrefixC p s = some (c, r) → ciListEq p c = true := by
  intro p
  induction p with
  | nil => intro s c r h; simp [ciPrefixC] at h; simp [ciListEq, h.1]
  | cons a ps ih =>
    intro s c r h
    cases s with
    | nil => simp [ciPrefixC] at h
    | cons b bs =>
      simp [ciPrefixC] at h
      obtain ⟨hab, y, hy, hc⟩ := h
      subst hc
      simp [ciListEq, hab, ih bs y r hy]

theorem closeParen_sound : ∀ s c r, closeParen s = some (c, r) → s = c ++ r := by
  intro s c r h
  unfold closeParen at h
  split at h
  · simp at h; rw [← h.1, ← h.2]; rfl
  · simp at h; rw [← h.1, ← h.2]; rfl
  · simp at h

theorem tryLit_sound (lit : List Char) :
    ∀ s c r, tryLit lit s = some (c, r) → s = c ++ r := by
  intro s c r h
  unfold tryLit at h
  cases h1 : ciPrefixC lit s with
  | none => simp [h1] at h
  | some x =>
    simp [h1] at h
    cases h2 : closeParen x.2 with
    | none => simp [h2] at h
    | some y =>
      simp [h2] at h
      obtain ⟨hc, hr⟩ := h
      subst hc; subst hr
      rw [ciPrefixC_sound lit s x.1 x.2 h1, closeParen_sound x.2 y.1 y.2 h2, List.append_assoc]

theorem mdPathCore_sound (P Pe : List Char) :
    ∀ s c r, mdPathCore P Pe s = some (c, r) → s = c ++ r := by
  intro s c r h
  unfold mdPathCore at h
  rcases orElse_eq_some h with h1 | ⟨-, h1⟩
  · exact tryLit_sound _ s c r h1
  rcases orElse_eq_some h1 with h2 | ⟨-, h2⟩
  · exact tryLit_sound _ s c r h2
  rcases orElse_eq_some h2 with h3 | ⟨-, h3⟩
  · exact tryLit_sound _ s c r h3
  · exact tryLit_sound _ s c r h3

theorem mdFullTail_sound (P Pe : List Char) :
    ∀ s c r, mdFullTail P Pe s = some (c, r) → s = c ++ r := by
  intro s c r h
  unfold mdFullTail at h
  split at h
  · rename_i cs
    cases h1 : mdPathCore P Pe cs with
    | none => simp [h1] at h; exact mdPathCore_sound P Pe _ c r h
    | some x =>
      simp [h1] at h
      obtain ⟨hc, hr⟩ := h
      subst hc; subst hr
      simp [mdPathCore_sound P Pe cs x.1 x.2 h1]
  · exact mdPathCore_sound P Pe s c r h

theorem consumeToParen_sound : ∀ s c r, consumeToParen s = some (c, r) → s = c ++ r := by
  intro s
  induction s with
  | nil => intro c r h; simp [consumeToParen] at h
  | cons a t ih =>
    intro c r h
    rw [consumeToParen] at h
    split at h
    · simp at h; rw [← h.1, ← h.2]; rfl
    · rcases Option.map_eq_some'.mp h with ⟨x, hx, hg⟩
      simp only [Prod.mk.injEq] at hg
      obtain ⟨hc, hr⟩ := hg
      rw [← hc, ← hr]
      simp [ih x.1 x.2 hx]

theorem tryName_sound (N Ne : List Char) :
    ∀ s c r, tryName N Ne s = some (c, r) → s = c ++ r := by
  intro s c r h
  unfold tryName at h
  have core : ∀ (L : List Char),
      (match ciPrefixC L s with
       | some x => (consumeToParen x.2).map (fun y => (x.1 ++ y.1, y.2))
       | none => none) = some (c, r) → s = c ++ r := by
    intro L hL
    cases h1 : ciPrefixC L s with
    | none => simp [h1] at hL
    | some x =>
      simp only [h1] at hL
      rcases Option.map_eq_some'.mp hL with ⟨y, hy, hg⟩
      simp only [Prod.mk.injEq] at hg
      obtain ⟨hc, hr⟩ := hg
      rw [← hc, ← hr]
      rw [ciPrefixC_sound L s x.1 x.2 h1, consumeToParen_sound x.2 y.1 y.2 hy,
        List.append_assoc]
  rcases orElse_eq_some h with h1 | ⟨-, h1⟩
  · exact core N h1
  · exact core Ne h1

theorem mdNameCore_sound (N Ne : List Char) :
    ∀ s c r, mdNameCore N Ne s = some (c, r) → s = c ++ r := by
  intro s
  induction s with
  | nil => intro c r h; rw [mdNameCore] at h; exact tryName_sound N Ne _ c r h
  | cons a t ih =>
    intro c r h
    rw [mdNameCore] at h
    split at h
    · exact tryName_sound N Ne _ c r h
    · rcases orElse_eq_some h with hm | ⟨-, hm⟩
      · rcases Option.map_eq_some'.mp hm with ⟨x, hx, hg⟩
        simp only [Prod.mk.injEq] at hg
        obtain ⟨hc, hr⟩ := hg
        rw [← hc, ← hr]
        simp [ih x.1 x.2 hx]
      · exact tryName_sound N Ne _ c r hm

theorem mdAltHere_sound (tail : List Char → Option (List Char × List Char))
    (ht : ∀ s c r, tail s = some (c, r) → s = c ++ r) :
    ∀ s c r, mdAltHere tail s = some (c, r) → s = c ++ r := by
  intro s c r h
  unfold mdAltHere at h
  split at h
  · rename_i s2
    rcases Option.map_eq_some'.mp h with ⟨x, hx, hg⟩
    simp only [Prod.mk.injEq] at hg
    obtain ⟨hc, hr⟩ := hg
    rw [← hr, ← hc]
    simp [ht s2 x.1 x.2 hx]
  · simp at h

theorem mdNameTail_sound (N Ne : List Char) :
    ∀ s c r, mdNameTail N Ne s = some (c, r) → s = c ++ r := by
  intro s c r h
  unfold mdNameTail at h
  split at h
  · rename_i cs
    cases h1 : mdNameCore N Ne cs with
    | none => simp [h1] at h; exact mdNameCore_sound N Ne _ c r h
    | some x =>
      simp [h1] at h
      obtain ⟨hc, hr⟩ := h
      subst hc; subst hr
      simp [mdNameCore_sound N Ne cs x.1 x.2 h1]
  · exact mdNameCore_sound N Ne s c r h

theorem mdAltLoop_sound (tail : List Char → Option (List Char × List Char))
    (ht : ∀ s c r, tail s = some (c, r) → s = c ++ r) :
    ∀ s a c r, mdAltLoop tail s = some (a, c, r) → s = a ++ (c ++ r) := by
  intro s
  induction s with
  | nil => intro a c r h; simp [mdAltLoop] at h
  | cons b t ih =>
    intro a c r h
    rw [mdAltLoop] at h
    cases hx : mdAltHere tail (b :: t) with
    | some y =>
      simp only [hx, Option.some.injEq, Prod.mk.injEq] at h
      obtain ⟨ha, hc, hr⟩ := h
      rw [← ha, ← hc, ← hr]
      simpa using mdAltHere_sound tail ht (b :: t) y.1 y.2 hx
    | none =>
      simp only [hx] at h
      split at h
      · simp at h
      · rcases Option.map_eq_some'.mp h with ⟨x, hx2, hg⟩
        simp only [Prod.mk.injEq] at hg
        obtain ⟨ha, hc, hr⟩ := hg
        rw [← ha, ← hc, ← hr]
        simp [ih x.1 x.2.1 x.2.2 hx2]

theorem mdFindAt_sound (tail : List Char → Option (List Char × List Char))
    (ht : ∀ s c r, tail s = some (c, r) → s = c ++ r) :
    FindSound (mdFindAt tail) := by
  intro s m a r h
  unfold mdFindAt at h
  split at h
  · rename_i s2
    cases h1 : mdAltLoop tail s2 with
    | none => simp [h1] at h
    | some x =>
      simp [h1] at h
      obtain ⟨hm, ha, hr⟩ := h
      subst hm; subst ha; subst hr
      have := mdAltLoop_sound tail ht s2 x.1 x.2.1 x.2.2 h1
      constructor
      · simp [this]
      · simp
  · simp at h

theorem wikiTryFull_sound (L : List Char) :
    ∀ s c r, wikiTryFull L s = some (c, r) → s = c ++ r := by
  intro s c r h
  unfold wikiTryFull at h
  cases h1 : ciPrefixC L s with
  | none => simp [h1] at h
  | some x =>
    simp [h1] at h
    split at h
    · rename_i r2 heq
      simp at h
      obtain ⟨hc, hr⟩ := h
      subst hc; subst hr
      rw [ciPrefixC_sound L s x.1 x.2 h1, heq]
      simp
    · simp at h

theorem wikiLazy_sound (P : List Char) :
    ∀ s c r, wikiLazy P s = some (c, r) → s = c ++ r := by
  intro s
  induction s with
  | nil => intro c r h; rw [wikiLazy] at h; exact wikiTryFull_sound P _ c r h
  | cons a t ih =>
    intro c r h
    rw [wikiLazy] at h
    cases hx : wikiTryFull P (a :: t) with
    | some y =>
      simp only [hx, Option.some.injEq] at h
      subst h
      exact wikiTryFull_sound P _ c r hx
    | none =>
      simp only [hx] at h
      split at h
      · simp at h
      · rcases Option.map_eq_some'.mp h with ⟨x, hx2, hg⟩
        simp only [Prod.mk.injEq] at hg
        obtain ⟨hc, hr⟩ := hg
        rw [← hc, ← hr]
        simp [ih x.1 x.2 hx2]

theorem wikiGreedy_sound (N : List Char) :
    ∀ s c r, wikiGreedy N s = some (c, r) → s = c ++ r := by
  intro s
  induction s with
  | nil => intro c r h; rw [wikiGreedy] at h; exact wikiTryFull_sound N _ c r h
  | cons a t ih =>
    intro c r h
    rw [wikiGreedy] at h
    split at h
    · exact wikiTryFull_sound N _ c r h
    · rcases orElse_eq_some h with hm | ⟨-, hm⟩
      · rcases Option.map_eq_some'.mp hm with ⟨x, hx2, hg⟩
        simp only [Prod.mk.injEq] at hg
        obtain ⟨hc, hr⟩ := hg
        rw [← hc, ← hr]
        simp [ih x.1 x.2 hx2]
      · exact wikiTryFull_sound N _ c r hm

theorem wikiFindAt_sound (inner : List Char → Option (List Char × List Char))
    (hi : ∀ s c r, inner s = some (c, r) → s = c ++ r) :
    FindSound (wikiFindAt inner) := by
  intro s m a r h
  unfold wikiFindAt at h
  split at h
  · rename_i s2
    cases h1 : inner s2 with
    | none => simp [h1] at h
    | some x =>
      simp [h1] at h
      obtain ⟨hm, ha, hr⟩ := h
      subst hm; subst ha; subst hr
      constructor
      · simp [hi s2 x.1 x.2 h1]
      · simp
  · simp at h

theorem mdFullFind_sound (P Pe : List Char) : FindSound (mdFullFind P Pe) :=
  mdFindAt_sound _ (mdFullTail_sound P Pe)

theorem mdByNameFind_sound (N Ne : List Char) : FindSound (mdByNameFind N Ne) :=
  mdFindAt_sound _ (mdNameTail_sound N Ne)

theorem wikiFullFind_sound (P : List Char) : FindSound (wikiFullFind P) :=
  wikiFindAt_sound _ (wikiLazy_sound P)

theorem wikiByNameFind_sound (N : List Char) : FindSound (wikiByNameFind N) :=
  wikiFindAt_sound _ (wikiGreedy_sound N)

/-! ### The consumed tail of a Markdown rule ends with a closing paren -/

theorem closeParen_ends : ∀ s c r, closeParen s = some (c, r) → EndsParen c := by
  intro s c r h
  unfold closeParen at h
  split at h
  · simp at h; exact ⟨[], by rw [← h.1]; rfl⟩
  · simp at h; exact ⟨['>'], by rw [← h.1]; rfl⟩
  · simp at h

theorem tryLit_ends (lit : List Char) :
    ∀ s c r, tryLit lit s = some (c, r) → EndsParen c := by
  intro s c r h
  unfold tryLit at h
  cases h1 : ciPrefixC lit s with
  | none => simp [h1] at h
  | some x =>
    simp only [h1] at h
    cases h2 : closeParen x.2 with
    | none => simp [h2] at h
    | some y =>
      simp only [h2] at h
      simp at h
      obtain ⟨m0, hm0⟩ := closeParen_ends x.2 y.1 y.2 h2
      exact ⟨x.1 ++ m0, by rw [← h.1, hm0, List.append_assoc]⟩

theorem mdPathCore_ends (P Pe : List Char) :
    ∀ s c r, mdPathCore P Pe s = some (c, r) → EndsParen c := by
  intro s c r h
  unfold mdPathCore at h
  rcases orElse_eq_some h with h1 | ⟨-, h1⟩
  · exact tryLit_ends _ s c r h1
  rcases orElse_eq_some h1 with h2 | ⟨-, h2⟩
  · exact tryLit_ends _ s c r h2
  rcases orElse_eq_some h2 with h3 | ⟨-, h3⟩
  · exact tryLit_ends _ s c r h3
  · exact tryLit_ends _ s c r h3

theorem mdFullTail_ends (P Pe : List Char) :
    ∀ s c r, mdFullTail P Pe s = some (c, r) → EndsParen c := by
  intro s c r h
  unfold mdFullTail at h
  split at h
  · rename_i cs
    cases h1 : mdPathCore P Pe cs with
    | none => simp [h1] at h; exact mdPathCore_ends P Pe _ c r h
    | some x =>
      simp only [h1] at h
      simp at h
      obtain ⟨m0, hm0⟩ := mdPathCore_ends P Pe cs x.1 x.2 h1
      exact ⟨'<' :: m0, by rw [← h.1, hm0]; rfl⟩
  · exact mdPathCore_ends P Pe s c r h

theorem consumeToParen_ends : ∀ s c r, consumeToParen s = some (c, r) → EndsParen c := by
  intro s
  induction s with
  | nil => intro c r h; simp [consumeToParen] at h
  | cons a t ih =>
    intro c r h
    rw [consumeToParen] at h
    split at h
    · rename_i ha
      simp at h
      exact ⟨[], by rw [← h.1, ha]; rfl⟩
    · rcases Option.map_eq_some'.mp h with ⟨x, hx, hg⟩
      simp only [Prod.mk.injEq] at hg
      obtain ⟨m0, hm0⟩ := ih x.1 x.2 hx
      exact ⟨a :: m0, by rw [← hg.1, hm0]; rfl⟩

theorem tryName_ends (N Ne : List Char) :
    ∀ s c r, tryName N Ne s = some (c, r) → EndsParen c := by
  intro s c r h
  unfold tryName at h
  have core : ∀ (L : List Char),
      (match ciPrefixC L s with
       | some x => (consumeToParen x.2).map (fun y => (x.1 ++ y.1, y.2))
       | none => none) = some (c, r) → EndsParen c := by
    intro L hL
    cases h1 : ciPrefixC L s with
    | none => simp [h1] at hL
    | some x =>
      simp only [h1] at hL
      rcases Option.map_eq_some'.mp hL with ⟨y, hy, hg⟩
      simp only [Prod.mk.injEq] at hg
      obtain ⟨m0, hm0⟩ := consumeToParen_ends x.2 y.1 y.2 hy
      exact ⟨x.1 ++ m0, by rw [← hg.1, hm0, List.append_assoc]⟩
  rcases orElse_eq_some h with h1 | ⟨-, h1⟩
  · exact core N h1
  · exact core Ne h1

theorem mdNameCore_ends (N Ne : List Char) :
    ∀ s c r, mdNameCore N Ne s = some (c, r) → EndsParen c := by
  intro s
  induction s with
  | nil => intro c r h; rw [mdNameCore] at h; exact tryName_ends N Ne _ c r h
  | cons a t ih =>
    intro c r h
    rw [mdNameCore] at h
    split at h
    · exact tryName_ends N Ne _ c r h
    · rcases orElse_eq_some h with hm | ⟨-, hm⟩
      · rcases Option.map_eq_some'.mp hm with ⟨x, hx, hg⟩
        simp only [Prod.mk.injEq] at hg
        obtain ⟨m0, hm0⟩ := ih x.1 x.2 hx
        exact ⟨a :: m0, by rw [← hg.1, hm0]; rfl⟩
      · exact tryName_ends N Ne _ c r hm

theorem mdNameTail_ends (N Ne : List Char) :
    ∀ s c r, mdNameTail N Ne s = some (c, r) → EndsParen c := by
  intro s c r h
  unfold mdNameTail at h
  split at h
  · rename_i cs
    cases h1 : mdNameCore N Ne cs with
    | none => simp [h1] at h; exact mdNameCore_ends N Ne _ c r h
    | some x =>
      simp only [h1] at h
      simp at h
      obtain ⟨m0, hm0⟩ := mdNameCore_ends N Ne cs x.1 x.2 h1
      exact ⟨'<' :: m0, by rw [← h.1, hm0]; rfl⟩
  · exact mdNameCore_ends N Ne s c r h

theorem mdAltLoop_shape (tail : List Char → Option (List Char × List Char))
    (hE : ∀ s c r, tail s = some (c, r) → EndsParen c) :
    ∀ s a c r, mdAltLoop tail s = some (a, c, r) →
      ∃ tc, c = ']' :: '(' :: tc ∧ EndsParen tc := by
  intro s
  induction s with
  | nil => intro a c r h; simp [mdAltLoop] at h
  | cons b t ih =>
    intro a c r h
    rw [mdAltLoop] at h
    cases hx : mdAltHere tail (b :: t) with
    | some y =>
      simp only [hx, Option.some.injEq, Prod.mk.injEq] at h
      obtain ⟨ha, hc, hr⟩ := h
      unfold mdAltHere at hx
      split at hx
      · rename_i s2 heq
        rcases Option.map_eq_some'.mp hx with ⟨x, hx2, hg⟩
        subst hg
        exact ⟨x.1, by rw [← hc], hE s2 x.1 x.2 hx2⟩
      · simp at hx
    | none =>
      simp only [hx] at h
      split at h
      · simp at h
      · rcases Option.map_eq_some'.mp h with ⟨x, hx2, hg⟩
        simp only [Prod.mk.injEq] at hg
        obtain ⟨tc, htc, hE2⟩ := ih x.1 x.2.1 x.2.2 hx2
        exact ⟨tc, by rw [← hg.2.1, htc], hE2⟩

theorem mdFindAt_shape (tail : List Char → Option (List Char × List Char))
    (hE : ∀ s c r, tail s = some (c, r) → EndsParen c) :
    ∀ s m a r, mdFindAt tail s = some (m, a, r) →
      ∃ mid, m = '!' :: '[' :: (a ++ ']' :: '(' :: (mid ++ [')'])) := by
  intro s m a r h
  unfold mdFindAt at h
  split at h
  · rename_i s2
    cases h1 : mdAltLoop tail s2 with
    | none => simp [h1] at h
    | some x =>
      simp only [h1, Option.some.injEq, Prod.mk.injEq] at h
      obtain ⟨hm, ha, hr⟩ := h
      obtain ⟨tc, htc, m0, hm0⟩ := mdAltLoop_shape tail hE s2 x.1 x.2.1 x.2.2 h1
      refine ⟨m0, ?_⟩
      rw [← hm, ← ha, htc, hm0]
  · simp at h

/-! ### Claim theorem: alt-text preservation -/

/-- Claim C7: every Markdown match of the by-path rule or the by-name
rule (the latter shared by `updateImageLinks` and
`updateImageLinksByFilename`) decomposes as `![alt](mid)` around its alt
capture, and the replacement emitted for it is `![alt](absMd)` with the
very same capture — rewriting changes only the target, never the alt
text. -/
theorem C7_alt_preserved (P Pe N Ne absMd : List Char) :
    (∀ s m a r, mdFullFind P Pe s = some (m, a, r) →
      (∃ mid, m = '!' :: '[' :: (a ++ ']' :: '(' :: (mid ++ [')']))) ∧
      mdRender absMd a = '!' :: '[' :: (a ++ ']' :: '(' :: (absMd ++ [')']))) ∧
    (∀ s m a r, mdByNameFind N Ne s = some (m, a, r) →
      (∃ mid, m = '!' :: '[' :: (a ++ ']' :: '(' :: (mid ++ [')']))) ∧
      mdRender absMd a = '!' :: '[' :: (a ++ ']' :: '(' :: (absMd ++ [')']))) := by
  constructor
  · intro s m a r h
    exact ⟨mdFindAt_shape _ (mdFullTail_ends P Pe) s m a r h, rfl⟩
  · intro s m a r h
    exact ⟨mdFindAt_shape _ (mdNameTail_ends N Ne) s m a r h, rfl⟩

/-- Claim C7 witness: the by-name rule matching `![cap](pics/img.png)`
keeps the capture `cap` in its replacement. -/
theorem C7_witness :
    mdByNameFind "img.png".data "img.png".data "![cap](pics/img.png)".data =
      some ("![cap](pics/img.png)".data, "cap".data, []) ∧
    ((∃ mid, "![cap](pics/img.png)".data =
        '!' :: '[' :: ("cap".data ++ ']' :: '(' :: (mid ++ [')']))) ∧
      mdRender "/docs/img.png".data "cap".data =
        '!' :: '[' :: ("cap".data ++ ']' :: '(' :: ("/docs/img.png".data ++ [')']))) :=
  ⟨by decide,
    (C7_alt_preserved "assets/img.png".data "assets/img.png".data "img.png".data
      "img.png".data "/docs/img.png".data).2 "![cap](pics/img.png)".data
      "![cap](pics/img.png)".data "cap".data [] (by decide)⟩

/-! ### Properties of the global replace -/

theorem replF_flag_false (find : List Char → Option (List Char × List Char × List Char))
    (render : List Char → List Char) :
    ∀ n s, (replF find render n s).2 = false → (replF find render n s).1 = s := by
  intro n
  induction n with
  | zero =>
    intro s h
    cases s with
    | nil => rfl
    | cons c cs => rfl
  | succ n ih =>
    intro s h
    cases s with
    | nil => rfl
    | cons c cs =>
      rw [replF] at h ⊢
      cases hx : find (c :: cs) with
      | some x => simp [hx] at h
      | none =>
        simp only [hx] at h ⊢
        simp only [List.cons.injEq, true_and]
        exact ih cs h

theorem stageRun_flag_false (find : List Char → Option (List Char × List Char × List Char))
    (render : List Char → List Char) (s : List Char)
    (h : (stageRun find render s).2 = false) : (stageRun find render s).1 = s :=
  replF_flag_false find render s.length s h

theorem replF_rewrites (find : List Char → Option (List Char × List Char × List Char))
    (render : List Char → List Char) (hs : FindSound find) :
    ∀ n s, s.length ≤ n → Rewrites find render s (replF find render n s).1 := by
  intro n
  induction n with
  | zero =>
    intro s hlen
    have : s = [] := List.length_eq_zero.mp (Nat.le_zero.mp hlen)
    subst this
    exact Rewrites.nil
  | succ n ih =>
    intro s hlen
    cases s with
    | nil => exact Rewrites.nil
    | cons c cs =>
      rw [replF]
      cases hx : find (c :: cs) with
      | some x =>
        obtain ⟨heq, hne⟩ := hs (c :: cs) x.1 x.2.1 x.2.2 (by rw [hx])
        have hr : x.2.2.length ≤ n := by
          have h1 : (c :: cs).length = x.1.length + x.2.2.length := by
            rw [heq]; simp
          have h2 : 1 ≤ x.1.length := by
            cases hm : x.1 with
            | nil => exact absurd hm hne
            | cons y ys => simp
          simp at hlen h1
          omega
        simpa using Rewrites.repl (c :: cs) x.1 x.2.1 x.2.2 _ (by rw [hx]) heq (ih x.2.2 hr)
      | none =>
        have hcs : cs.length ≤ n := by simp at hlen; omega
        simpa using Rewrites.skip c cs _ hx (ih cs hcs)

theorem stageRun_rewrites (find : List Char → Option (List Char × List Char × List Char))
    (render : List Char → List Char) (hs : FindSound find) (s : List Char) :
    Rewrites find render s (stageRun find render s).1 :=
  replF_rewrites find render hs s.length s (Nat.le_refl _)

theorem replF_fuel (find : List Char → Option (List Char × List Char × List Char))
    (render : List Char → List Char) (hs : FindSound find) :
    ∀ n m s, s.length ≤ n → s.length ≤ m →
      replF find render n s = replF find render m s := by
  intro n
  induction n with
  | zero =>
    intro m s hn hm
    have : s = [] := List.length_eq_zero.mp (Nat.le_zero.mp hn)
    subst this
    cases m <;> rfl
  | succ n ih =>
    intro m s hn hm
    cases s with
    | nil => cases m <;> rfl
    | cons c cs =>
      cases m with
      | zero => simp at hm
      | succ m =>
        rw [replF, replF]
        cases hx : find (c :: cs) with
        | some x =>
          obtain ⟨heq, hne⟩ := hs (c :: cs) x.1 x.2.1 x.2.2 (by rw [hx])
          have h1 : (c :: cs).length = x.1.length + x.2.2.length := by
            rw [heq]; simp
          have h2 : 1 ≤ x.1.length := by
            cases hm2 : x.1 with
            | nil => exact absurd hm2 hne
            | cons y ys => simp
          simp at hn hm h1
          simp [ih m x.2.2 (by omega) (by omega)]
        | none =>
          simp at hn hm
          simp [ih m cs (by omega) (by omega)]

/-! ### Claim theorems: the rewrite pass -/

/-- Claim C2: on a corpus holding the document
`Look at ![My Shot](assets/img.png) and ![[assets/img.png]]`,
running `updateImageLinks` with old path `assets/img.png` and new path
`docs/img.png` yields `Look at ![My Shot](/docs/img.png) and ![[/docs/img.png]]`. -/
theorem C2_rename_example :
    updateImageLinks "assets/img.png" "docs/img.png"
      [("note.md", "Look at ![My Shot](assets/img.png) and ![[assets/img.png]]")] =
    [("note.md", "Look at ![My Shot](/docs/img.png) and ![[/docs/img.png]]")] := by
  decide

/-- Claim C1 (counterexample): one pass of `updateImageLinks` on the
document `![a](assets/img.png)](assets/img.png)` (old `assets/img.png`,
new `docs/img.png`) neither leaves the text byte-identical nor rewrites
every reference matching the old identity: the output still contains a
Markdown reference that the Markdown-by-path rule itself matches and
whose target is the raw old path, not the new vault-root absolute path. -/
theorem C1_counterexample :
    (updateImageLinksDoc "assets/img.png".data "docs/img.png".data
        "![a](assets/img.png)](assets/img.png)".data).1 ≠
      "![a](assets/img.png)](assets/img.png)".data ∧
    (updateImageLinksDoc "assets/img.png".data "docs/img.png".data
        "![a](assets/img.png)](assets/img.png)".data).1 =
      "![a](/docs/img.png)](assets/img.png)".data ∧
    mdFullFind (normalizePathL "assets/img.png".data)
        (encodeURIL (normalizePathL "assets/img.png".data))
        "![a](/docs/img.png)](assets/img.png)".data =
      some ("![a](/docs/img.png)](assets/img.png)".data, "a](/docs/img.png)".data, []) ∧
    "![a](/docs/img.png)](assets/img.png)".data =
      ("![" ++ "a](/docs/img.png)" ++ "](" ++ "assets/img.png" ++ ")").data ∧
    "assets/img.png".data ≠ encodeURIL (ensureLeadingSlashL "docs/img.png".data) := by
  decide

/-- Claim C1 (amended): one pass of `updateImageLinks` on a document is
exactly the four sequential leftmost global occurrence-rewriting scans of
the source, each replacing every occurrence it matches by the new
vault-root absolute path in that occurrence's syntax (`![alt](absMd)`
with the percent-encoded path for the Markdown rules, `![[abs]]` with the
raw path for the wiki rules); with no match the pass is the identity.
The guarantee is per matched occurrence: as the counterexample shows, the
output text may still contain an old-identity reference assembled from
bracket text spanning match boundaries. -/
theorem C1_per_occurrence (oldPath newPath content : List Char) :
    UpdatePassRel oldPath newPath content (updateImageLinksDoc oldPath newPath content).1 := by
  unfold UpdatePassRel updateImageLinksDoc
  exact ⟨_, _, _,
    stageRun_rewrites _ _ (mdFullFind_sound _ _) _,
    stageRun_rewrites _ _ (mdByNameFind_sound _ _) _,
    stageRun_rewrites _ _ (wikiFullFind_sound _) _,
    stageRun_rewrites _ _ (wikiByNameFind_sound _) _⟩

/-- Claim C4 (counterexample): on the document `![x](/docs/img.png)`
(old `assets/img.png`, new `docs/img.png`) a replacement callback runs —
the Markdown-by-name rule matches the already-correct reference — so the
change signal is true, yet the rewritten text equals the original. -/
theorem C4_counterexample :
    (updateImageLinksDoc "assets/img.png".data "docs/img.png".data
        "![x](/docs/img.png)".data).2 = true ∧
    (updateImageLinksDoc "assets/img.png".data "docs/img.png".data
        "![x](/docs/img.png)".data).1 = "![x](/docs/img.png)".data := by
  decide

/-- Claim C4 (amended): the change signal of `updateImageLinks` is sound
in one direction only — whenever the signal is false the document text is
unchanged (equivalently, a changed text implies some callback ran); the
converse fails, as the counterexample shows. -/
theorem C4_changed_flag (oldPath newPath content : List Char)
    (h : (updateImageLinksDoc oldPath newPath content).2 = false) :
    (updateImageLinksDoc oldPath newPath content).1 = content := by
  unfold updateImageLinksDoc at h ⊢
  simp only [Bool.or_eq_false_iff] at h
  obtain ⟨⟨⟨h1, h2⟩, h3⟩, h4⟩ := h
  rw [stageRun_flag_false _ _ _ h4, stageRun_flag_false _ _ _ h3,
    stageRun_flag_false _ _ _ h2, stageRun_flag_false _ _ _ h1]

/-- Claim C4 witness: a concrete instance of the amended theorem. -/
theorem C4_witness :
    (updateImageLinksDoc "assets/img.png".data "docs/img.png".data
        "nothing to see here".data).2 = false ∧
    (updateImageLinksDoc "assets/img.png".data "docs/img.png".data
        "nothing to see here".data).1 = "nothing to see here".data :=
  ⟨by decide, C4_changed_flag "assets/img.png".data "docs/img.png".data
    "nothing to see here".data (by decide)⟩

/-! ### The unique-path generator: supporting lemmas -/

theorem uniquePathFuel_not_exists (existsFn : String → Bool) (base ext folder : String) :
    ∀ (n : Nat) (cand : String) (att : Nat) (p : String),
      uniquePathFuel existsFn base ext folder n cand att = some p → existsFn p = false := by
  intro n
  induction n with
  | zero => intro cand att p h; simp [uniquePathFuel] at h
  | succ n ih =>
    intro cand att p h
    rw [uniquePathFuel] at h
    split at h
    · exact ih _ _ p h
    · simp at h
      subst h
      rename_i hfalse
      simp at hfalse
      exact hfalse

theorem uniquePathFuel_reaches (existsFn : String → Bool) (dest base ext folder : String) :
    ∀ (k j n : Nat),
      (∀ i, j ≤ i → i < j + k → existsFn (uniquePathCand dest base ext folder i) = true) →
      existsFn (uniquePathCand dest base ext folder (j + k)) = false →
      k + 1 ≤ n →
      uniquePathFuel existsFn base ext folder n (uniquePathCand dest base ext folder j) (j + 1) =
        some (uniquePathCand dest base ext folder (j + k)) := by
  intro k
  induction k with
  | zero =>
    intro j n hall hfree hn
    cases n with
    | zero => omega
    | succ n =>
      rw [uniquePathFuel]
      rw [show j + 0 = j from rfl] at hfree
      simp [hfree]
  | succ k ih =>
    intro j n hall hfree hn
    cases n with
    | zero => omega
    | succ n =>
      rw [uniquePathFuel]
      have hj : existsFn (uniquePathCand dest base ext folder j) = true :=
        hall j (Nat.le_refl j) (by omega)
      simp only [hj, if_true]
      have key := ih (j + 1) n
        (fun i h1 h2 => hall i (by omega) (by omega))
        (by
          have hidx : j + 1 + k = j + (k + 1) := by omega
          rw [hidx]; exact hfree)
        (by omega)
      have hidx : j + 1 + k = j + (k + 1) := by omega
      rw [hidx] at key
      exact key

theorem uniquePathFuel_reaches0 (existsFn : String → Bool) (dest base ext folder : String)
    (k n : Nat)
    (hall : ∀ i, i < k → existsFn (uniquePathCand dest base ext folder i) = true)
    (hfree : existsFn (uniquePathCand dest base ext folder k) = false)
    (hn : k + 1 ≤ n) :
    uniquePathFuel existsFn base ext folder n dest 1 =
      some (uniquePathCand dest base ext folder k) := by
  have key := uniquePathFuel_reaches existsFn dest base ext folder k 0 n
    (fun i h1 h2 => hall i (by omega)) (by simpa using hfree) hn
  simpa using key

theorem uniquePathFuel_const_true (base ext folder : String) :
    ∀ (n : Nat) (cand : String) (att : Nat),
      uniquePathFuel (fun _ => true) base ext folder n cand att = none := by
  intro n
  induction n with
  | zero => intro cand att; rfl
  | succ n ih => intro cand att; rw [uniquePathFuel]; simp [ih]

/-! Characters of a printed natural number are never slashes, so the
probe candidates survive `normalizePath` unchanged. -/

theorem toDigitsCore_chars (b : Nat) :
    ∀ (fuel n : Nat) (ds : List Char) (c : Char), c ∈ Nat.toDigitsCore b fuel n ds →
      c ∈ ds ∨ ∃ m, c = Nat.digitChar (m % b) := by
  intro fuel
  induction fuel with
  | zero => intro n ds c h; rw [Nat.toDigitsCore] at h; exact Or.inl h
  | succ f ih =>
    intro n ds c h
    rw [Nat.toDigitsCore] at h
    split at h
    · rcases List.mem_cons.mp h with h | h
      · exact Or.inr ⟨n, h⟩
      · exact Or.inl h
    · rcases ih (n / b) (Nat.digitChar (n % b) :: ds) c h with h2 | h2
      · rcases List.mem_cons.mp h2 with h3 | h3
        · exact Or.inr ⟨n, h3⟩
        · exact Or.inl h3
      · exact Or.inr h2

theorem toDigitsCore_ne_nil (b : Nat) :
    ∀ (f n : Nat) (ds : List Char), ds ≠ [] → Nat.toDigitsCore b f n ds ≠ [] := by
  intro f
  induction f with
  | zero => intro n ds h; rw [Nat.toDigitsCore]; exact h
  | succ f ih =>
    intro n ds h
    rw [Nat.toDigitsCore]
    split
    · simp
    · exact ih (n / b) _ (by simp)

theorem digitChar_no_slash (m : Nat) (hm : m < 10) : isSlashChar (Nat.digitChar m) = false := by
  interval_cases m <;> decide

theorem repr_no_slash (n : Nat) : ∀ c ∈ (Nat.repr n).data, isSlashChar c = false := by
  intro c hc
  have hdata : (Nat.repr n).data = Nat.toDigitsCore 10 (n + 1) n [] := rfl
  rw [hdata] at hc
  rcases toDigitsCore_chars 10 (n + 1) n [] c hc with h | ⟨m, hm⟩
  · simp at h
  · rw [hm]; exact digitChar_no_slash (m % 10) (Nat.mod_lt m (by decide))

theorem repr_ne_nil (n : Nat) : (Nat.repr n).data ≠ [] := by
  have hdata : (Nat.repr n).data = Nat.toDigitsCore 10 (n + 1) n [] := rfl
  rw [hdata, Nat.toDigitsCore]
  split
  · simp
  · exact toDigitsCore_ne_nil 10 n _ _ (by simp)

theorem collapseSlashes_no_slash (s : List Char) (h : ∀ c ∈ s, isSlashChar c = false) :
    collapseSlashes s = s := by
  induction s with
  | nil => rfl
  | cons a t ih =>
    rw [collapseSlashes]
    have ha : isSlashChar a = false := h a (by simp)
    simp only [ha, Bool.false_eq_true, if_false]
    rw [ih (fun c hc => h c (by simp [hc]))]

theorem dropSlashes_no_slash (s : List Char) (h : ∀ c ∈ s, isSlashChar c = false) :
    dropSlashes s = s := by
  cases s with
  | nil => rfl
  | cons a t =>
    have ha : isSlashChar a = false := h a (by simp)
    have ha2 : (a = '/') = False := by
      simp [isSlashChar] at ha
      simp [ha.1]
    unfold dropSlashes
    rw [List.dropWhile_cons]
    simp [ha2]

theorem normalizePathL_no_slash (s : List Char) (h : ∀ c ∈ s, isSlashChar c = false)
    (hne : s ≠ []) : normalizePathL s = s := by
  simp only [normalizePathL]
  rw [collapseSlashes_no_slash s h, dropSlashes_no_slash s h]
  rw [dropSlashes_no_slash s.reverse (fun c hc => h c (List.mem_reverse.mp hc))]
  rw [List.reverse_reverse]
  simp [hne]

theorem normalizePath_eq_self (s : String) (h : ∀ c ∈ s.data, isSlashChar c = false)
    (hne : s.data ≠ []) : normalizePath s = s := by
  unfold normalizePath
  rw [normalizePathL_no_slash s.data h hne]

theorem candN_eq (k : Nat) :
    nextCandidate "base" "png" "" k = "base " ++ Nat.repr k ++ ".png" := by
  have harg : nextCandidate "base" "png" "" k =
      normalizePath ("base " ++ Nat.repr k ++ ".png") := rfl
  rw [harg]
  apply normalizePath_eq_self
  · intro c hc
    simp only [String.data_append] at hc
    rcases List.mem_append.mp hc with hc1 | hc2
    · rcases List.mem_append.mp hc1 with hc3 | hc4
      · exact (by decide : ∀ c ∈ "base ".data, isSlashChar c = false) c hc3
      · exact repr_no_slash k c hc4
    · exact (by decide : ∀ c ∈ ".png".data, isSlashChar c = false) c hc2
  · simp only [String.data_append]
    simp

/-! ### Claim theorems: the unique-path generator -/

/-- Claim C3: whenever `uniquePath` returns a path the existence oracle
is false at it; and with exactly `base.png`, `base 1.png`, …,
`base (N-1).png` already present, `uniquePath` on desired path
`base.png` (base `base`, extension `png`, root folder) returns
`base N.png`.  The second part is stated for any oracle that answers true
at the N occupied probe points and false at `base N.png`, which is what
the exactly-these-exist oracle answers there. -/
theorem C3_uniquePath :
    (∀ (existsFn : String → Bool) (base ext folder : String) (n : Nat) (cand : String)
        (att : Nat) (p : String),
        uniquePathFuel existsFn base ext folder n cand att = some p → existsFn p = false) ∧
    (∀ (existsFn : String → Bool) (N : Nat), 1 ≤ N →
        existsFn "base.png" = true →
        (∀ k, 1 ≤ k → k < N → existsFn ("base " ++ Nat.repr k ++ ".png") = true) →
        existsFn ("base " ++ Nat.repr N ++ ".png") = false →
        uniquePathFuel existsFn "base" "png" "" (N + 1) "base.png" 1 =
          some ("base " ++ Nat.repr N ++ ".png")) := by
  constructor
  · exact fun ef b e f => uniquePathFuel_not_exists ef b e f
  · intro existsFn N hN h0 hmid hfree
    cases N with
    | zero => omega
    | succ n =>
      have key := uniquePathFuel_reaches0 existsFn "base.png" "base" "png" "" (n + 1) (n + 2)
        (by
          intro i h2
          cases i with
          | zero => exact h0
          | succ i =>
            have hc : uniquePathCand "base.png" "base" "png" "" (i + 1) =
                "base " ++ Nat.repr (i + 1) ++ ".png" := candN_eq (i + 1)
            rw [hc]
            exact hmid (i + 1) (by omega) (by omega))
        (by
          have hc : uniquePathCand "base.png" "base" "png" "" (n + 1) =
              "base " ++ Nat.repr (n + 1) ++ ".png" := candN_eq (n + 1)
          rw [hc]
          exact hfree)
        (by omega)
      rw [← candN_eq (n + 1)]
      exact key

/-- Claim C3 witness: concrete instances of both parts (one pre-existing
collision, then N = 2 collisions resolved to `base 2.png`). -/
theorem C3_witness :
    (uniquePathFuel (fun p => p == "base.png") "base" "png" "" 2 "base.png" 1 =
        some "base 1.png" ∧
      (fun p => p == "base.png") "base 1.png" = false) ∧
    ((1 : Nat) ≤ 2 ∧
      uniquePathFuel (fun p => p == "base.png" || p == "base 1.png") "base" "png" "" 3
        "base.png" 1 = some ("base " ++ Nat.repr 2 ++ ".png")) :=
  ⟨⟨by decide, C3_uniquePath.1 (fun p => p == "base.png") "base" "png" "" 2 "base.png" 1
      "base 1.png" (by decide)⟩,
    ⟨by decide, C3_uniquePath.2 (fun p => p == "base.png" || p == "base 1.png") 2
      (by decide) (by decide)
      (fun k h1 h2 => by interval_cases k; decide) (by decide)⟩⟩

/-- Claim C8 (counterexample): with an existence oracle that always
answers true, the probe loop of `uniquePath` never returns — no amount of
fuel produces a result — so `uniquePath` does not terminate for every
oracle. -/
theorem C8_counterexample :
    ¬ uniquePathTerminates (fun _ => true) "base.png" "base" "png" "" := by
  intro h
  obtain ⟨n, p, h⟩ := h
  rw [uniquePathFuel_const_true "base" "png" "" n "base.png" 1] at h
  exact absurd h (by simp)

/-- Claim C8 (amended): `uniquePath` terminates exactly when some probed
candidate is free: if the oracle answers false at any point of the probe
sequence, the loop returns a path at which the oracle is false; with an
oracle that is true on every candidate (the counterexample) it never
returns. -/
theorem C8_termination (existsFn : String → Bool) (dest base ext folder : String)
    (h : ∃ k, existsFn (uniquePathCand dest base ext folder k) = false) :
    ∃ n p, uniquePathFuel existsFn base ext folder n dest 1 = some p ∧ existsFn p = false := by
  have hdec : DecidablePred (fun k => existsFn (uniquePathCand dest base ext folder k) = false) :=
    fun k => instDecidableEqBool _ _
  have k0 := Nat.find h
  have hk0 : existsFn (uniquePathCand dest base ext folder (Nat.find h)) = false :=
    Nat.find_spec h
  have hmin : ∀ i, i < Nat.find h →
      existsFn (uniquePathCand dest base ext folder i) = true := by
    intro i hi
    have := Nat.find_min h hi
    simp only [Bool.not_eq_false] at this
    exact this
  refine ⟨Nat.find h + 1, uniquePathCand dest base ext folder (Nat.find h), ?_, hk0⟩
  exact uniquePathFuel_reaches0 existsFn dest base ext folder (Nat.find h) (Nat.find h + 1)
    (fun i hi => hmin i hi) hk0 (Nat.le_refl _)

/-- Claim C8 witness: a concrete oracle with a free candidate, on which
the amended theorem produces a successful probe. -/
theorem C8_witness :
    (∃ k, (fun p => p == "base.png")
        (uniquePathCand "base.png" "base" "png" "" k) = false) ∧
    (∃ n p, uniquePathFuel (fun p => p == "base.png") "base" "png" "" n "base.png" 1 =
        some p ∧ (fun p => p == "base.png") p = false) :=
  ⟨⟨1, by decide⟩,
    C8_termination (fun p => p == "base.png") "base.png" "base" "png" "" ⟨1, by decide⟩⟩

/-! ### Which targets the Markdown-by-path rule accepts -/

theorem closeParen_none (c : Char) (cs : List Char) (h1 : c ≠ ')') (h2 : c ≠ '>') :
    closeParen (c :: cs) = none := by
  unfold closeParen
  split <;> simp_all

theorem tryLit_self (L : List Char) : tryLit L (L ++ [')']) = some (L ++ [')'], []) := by
  unfold tryLit
  rw [ciPrefixC_self L [')']]
  rfl

theorem tryLit_self_angle (L : List Char) :
    tryLit L (L ++ ['>', ')']) = some (L ++ ['>', ')'], []) := by
  unfold tryLit
  rw [ciPrefixC_self L ['>', ')']]
  rfl

theorem tryLit_cons_slash (L Z : List Char) :
    tryLit ('/' :: L) ('/' :: Z) = (tryLit L Z).map (fun x => ('/' :: x.1, x.2)) := by
  unfold tryLit
  rw [ciPrefixC, if_pos (ciEq_refl '/')]
  cases h1 : ciPrefixC L Z with
  | none => rfl
  | some x =>
    simp only [Option.map_some']
    cases h2 : closeParen x.2 with
    | none => simp [h2]
    | some y => simp [h2]

theorem tryLit_total (L X : List Char) (hX : ∀ c ∈ X, c ≠ ')' ∧ c ≠ '>') :
    tryLit L (X ++ [')']) = none ∨ tryLit L (X ++ [')']) = some (X ++ [')'], []) := by
  unfold tryLit
  cases h1 : ciPrefixC L (X ++ [')']) with
  | none => exact Or.inl rfl
  | some x =>
    have hsound := ciPrefixC_sound L _ x.1 x.2 h1
    simp only []
    cases hx2 : x.2 with
    | nil => left; simp [closeParen]
    | cons c cs =>
      rcases List.eq_nil_or_concat cs with hcs | ⟨ys, y, hcs⟩
      · subst hcs
        have h3 := List.append_inj'
          (by rw [hsound, hx2] : X ++ [')'] = x.1 ++ [c]) (by simp)
        have hc : c = ')' := by
          have h4 := h3.2
          simp at h4
          exact h4.symm
        right
        rw [hc]
        simp only [show closeParen [')'] = some ([')'], []) from rfl]
        rw [h3.1]
      · subst hcs
        left
        have heq : X ++ [')'] = (x.1 ++ c :: ys) ++ [y] := by
          rw [hsound, hx2]; simp
        have h3 := List.append_inj' heq (by simp)
        have hcX : c ∈ X := by rw [h3.1]; simp
        obtain ⟨hc1, hc2⟩ := hX c hcX
        simp only [closeParen_none c (ys.concat y) hc1 hc2]

theorem mdFullTail_slash_raw (P Pe : List Char) :
    mdFullTail P Pe ('/' :: (P ++ [')'])) = some ('/' :: (P ++ [')']), []) := by
  have h1 : tryLit ('/' :: P) ('/' :: (P ++ [')'])) = some ('/' :: (P ++ [')']), []) := by
    rw [tryLit_cons_slash, tryLit_self]
    rfl
  show mdPathCore P Pe ('/' :: (P ++ [')'])) = _
  unfold mdPathCore
  rw [h1, orElse_some]

theorem mdFullTail_raw (P Pe : List Char) (hPne : P ≠ [])
    (hslash : ∀ c, P.head? = some c → ciEq '/' c = false)
    (hlt : ∀ c, P.head? = some c → c ≠ '<') :
    mdFullTail P Pe (P ++ [')']) = some (P ++ [')'], []) := by
  obtain ⟨p0, P', hP⟩ := List.exists_cons_of_ne_nil hPne
  subst hP
  have hs : ciEq '/' p0 = false := hslash p0 rfl
  have hl : p0 ≠ '<' := hlt p0 rfl
  rw [List.cons_append]
  unfold mdFullTail
  split
  · rename_i cs heq
    injection heq with ha hb
    exact absurd ha hl
  · unfold mdPathCore
    have h1 : tryLit ('/' :: p0 :: P') (p0 :: (P' ++ [')'])) = none := by
      unfold tryLit
      rw [ciPrefixC, if_neg (by simp [hs])]
    have h2 : tryLit ('/' :: Pe) (p0 :: (P' ++ [')'])) = none := by
      unfold tryLit
      rw [ciPrefixC, if_neg (by simp [hs])]
    rw [h1, orElse_none, h2, orElse_none]
    rw [show p0 :: (P' ++ [')']) = (p0 :: P') ++ [')'] from rfl]
    rw [tryLit_self (p0 :: P'), orElse_some]

theorem mdFullTail_slash_enc (P Pe : List Char)
    (hXp : ∀ c ∈ Pe, c ≠ ')' ∧ c ≠ '>') :
    mdFullTail P Pe ('/' :: (Pe ++ [')'])) = some ('/' :: (Pe ++ [')']), []) := by
  show mdPathCore P Pe ('/' :: (Pe ++ [')'])) = _
  unfold mdPathCore
  rcases tryLit_total P Pe hXp with h3 | h3
  · have h1 : tryLit ('/' :: P) ('/' :: (Pe ++ [')'])) = none := by
      rw [tryLit_cons_slash, h3]
      rfl
    have h2 : tryLit ('/' :: Pe) ('/' :: (Pe ++ [')'])) =
        some ('/' :: (Pe ++ [')']), []) := by
      rw [tryLit_cons_slash, tryLit_self]
      rfl
    rw [h1, orElse_none, h2, orElse_some]
  · have h1 : tryLit ('/' :: P) ('/' :: (Pe ++ [')'])) =
        some ('/' :: (Pe ++ [')']), []) := by
      rw [tryLit_cons_slash, h3]
      rfl
    rw [h1, orElse_some]

theorem mdFullTail_enc (P Pe : List Char) (hPene : Pe ≠ [])
    (hslash : ∀ c, Pe.head? = some c → ciEq '/' c = false)
    (hlt : ∀ c, Pe.head? = some c → c ≠ '<')
    (hXp : ∀ c ∈ Pe, c ≠ ')' ∧ c ≠ '>') :
    mdFullTail P Pe (Pe ++ [')']) = some (Pe ++ [')'], []) := by
  obtain ⟨e0, Pe', hPeq⟩ := List.exists_cons_of_ne_nil hPene
  have hs : ciEq '/' e0 = false := hslash e0 (by rw [hPeq]; rfl)
  have hl : e0 ≠ '<' := hlt e0 (by rw [hPeq]; rfl)
  rw [hPeq, List.cons_append]
  unfold mdFullTail
  split
  · rename_i cs heq
    injection heq with ha hb
    exact absurd ha hl
  · unfold mdPathCore
    have h1 : tryLit ('/' :: P) (e0 :: (Pe' ++ [')'])) = none := by
      unfold tryLit
      rw [ciPrefixC, if_neg (by simp [hs])]
    have h2 : tryLit ('/' :: (e0 :: Pe')) (e0 :: (Pe' ++ [')'])) = none := by
      unfold tryLit
      rw [ciPrefixC, if_neg (by simp [hs])]
    rw [h1, orElse_none, h2, orElse_none]
    rw [show e0 :: (Pe' ++ [')']) = (e0 :: Pe') ++ [')'] from rfl]
    rcases tryLit_total P (e0 :: Pe') (by rw [← hPeq]; exact hXp) with h3 | h3
    · rw [h3, orElse_none, tryLit_self (e0 :: Pe')]
    · rw [h3, orElse_some]

theorem mdFullTail_angle (P Pe : List Char) :
    mdFullTail P Pe ('<' :: '/' :: (P ++ ['>', ')'])) =
      some ('<' :: '/' :: (P ++ ['>', ')']), []) := by
  have hcore : mdPathCore P Pe ('/' :: (P ++ ['>', ')'])) =
      some ('/' :: (P ++ ['>', ')']), []) := by
    unfold mdPathCore
    have h1 : tryLit ('/' :: P) ('/' :: (P ++ ['>', ')'])) =
        some ('/' :: (P ++ ['>', ')']), []) := by
      rw [tryLit_cons_slash, tryLit_self_angle]
      rfl
    rw [h1, orElse_some]
  unfold mdFullTail
  simp only [hcore]

theorem mdFullTail_dot_none (P Pe : List Char) (hPne : P ≠ []) (hPene : Pe ≠ [])
    (hPdot : ∀ c, P.head? = some c → ciEq c '.' = false)
    (hPedot : ∀ c, Pe.head? = some c → ciEq c '.' = false) :
    mdFullTail P Pe ('.' :: '/' :: (P ++ [')'])) = none := by
  obtain ⟨p0, P', hP⟩ := List.exists_cons_of_ne_nil hPne
  obtain ⟨e0, Pe', hPeq⟩ := List.exists_cons_of_ne_nil hPene
  have hpd : ciEq p0 '.' = false := hPdot p0 (by rw [hP]; rfl)
  have hed : ciEq e0 '.' = false := hPedot e0 (by rw [hPeq]; rfl)
  show mdPathCore P Pe ('.' :: '/' :: (P ++ [')'])) = none
  unfold mdPathCore
  have h1 : tryLit ('/' :: P) ('.' :: '/' :: (P ++ [')'])) = none := by
    unfold tryLit
    rw [ciPrefixC, if_neg (by decide)]
  have h2 : tryLit ('/' :: Pe) ('.' :: '/' :: (P ++ [')'])) = none := by
    unfold tryLit
    rw [ciPrefixC, if_neg (by decide)]
  have h3 : tryLit P ('.' :: '/' :: (P ++ [')'])) = none := by
    unfold tryLit
    rw [hP, ciPrefixC, if_neg (by simp [hpd])]
  have h4 : tryLit Pe ('.' :: '/' :: (P ++ [')'])) = none := by
    unfold tryLit
    rw [hPeq, ciPrefixC, if_neg (by simp [hed])]
  rw [h1, orElse_none, h2, orElse_none, h3, orElse_none, h4]

theorem mdAltLoop_none_no_bracket (tail : List Char → Option (List Char × List Char)) :
    ∀ (s : List Char), (∀ c ∈ s, c ≠ ']') → mdAltLoop tail s = none := by
  intro s
  induction s with
  | nil => intro h; rfl
  | cons c cs ih =>
    intro h
    rw [mdAltLoop]
    have hc : mdAltHere tail (c :: cs) = none := by
      unfold mdAltHere
      split
      · rename_i s2 heq
        injection heq with h1 h2
        exact absurd h1 (h c (by simp))
      · rfl
    simp only [hc]
    split
    · rfl
    · rw [ih (fun d hd => h d (by simp [hd]))]
      rfl

theorem mdAltLoop_skip (tail : List Char → Option (List Char × List Char))
    (c : Char) (cs : List Char)
    (h1 : mdAltHere tail (c :: cs) = none) (h2 : lineTerm c = false)
    (h3 : mdAltLoop tail cs = none) : mdAltLoop tail (c :: cs) = none := by
  rw [mdAltLoop]
  simp only [h1, h2]
  simp [h3]

theorem mdFindAt_header (tail : List Char → Option (List Char × List Char)) (T : List Char)
    (h : tail T = some (T, [])) :
    mdFindAt tail ('!' :: '[' :: 'a' :: ']' :: '(' :: T) =
      some ('!' :: '[' :: 'a' :: ']' :: '(' :: T, ['a'], []) := by
  have h2 : mdAltHere tail (']' :: '(' :: T) = some (']' :: '(' :: T, []) := by
    show (tail T).map (fun x => (']' :: '(' :: x.1, x.2)) = some (']' :: '(' :: T, [])
    rw [h]
    rfl
  have h1 : mdAltLoop tail ('a' :: ']' :: '(' :: T) =
      some (['a'], ']' :: '(' :: T, []) := by
    simp [mdAltLoop, h2, lineTerm,
      show mdAltHere tail ('a' :: ']' :: '(' :: T) = none from rfl]
  unfold mdFindAt
  simp only [h1]
  rfl

theorem mdFindAt_dot_none (tail : List Char → Option (List Char × List Char))
    (rest : List Char) (htail : tail rest = none) (hnb : ∀ c ∈ rest, c ≠ ']') :
    mdFindAt tail ('!' :: '[' :: 'a' :: ']' :: '(' :: rest) = none := by
  have h0 : mdAltLoop tail rest = none := mdAltLoop_none_no_bracket tail rest hnb
  have h1 : mdAltLoop tail ('(' :: rest) = none := by
    refine mdAltLoop_skip tail '(' rest ?_ rfl h0
    unfold mdAltHere
    split
    · rename_i s2 heq
      injection heq with ha hb
      exact absurd ha (by decide)
    · rfl
  have h2 : mdAltLoop tail (']' :: '(' :: rest) = none := by
    refine mdAltLoop_skip tail ']' ('(' :: rest) ?_ rfl h1
    show (tail rest).map (fun x => (']' :: '(' :: x.1, x.2)) = none
    rw [htail]
    rfl
  have h3 : mdAltLoop tail ('a' :: ']' :: '(' :: rest) = none :=
    mdAltLoop_skip tail 'a' (']' :: '(' :: rest) rfl rfl h2
  unfold mdFindAt
  simp only [h3]

/-! ### Claim theorems: the Markdown-by-path rule -/

/-- Claim C5 (counterexample): with old path `assets/img.png`, the
Markdown reference `![x](./assets/img.png)` carries the full raw path
behind a leading `./`, yet the Markdown-by-path rule finds no match in
the document and its pass leaves the text unchanged with no callback
run — the rule's alternation only allows an optional leading `/`. -/
theorem C5_counterexample :
    mdFullFind (normalizePathL "assets/img.png".data)
        (encodeURIL (normalizePathL "assets/img.png".data))
        "![x](./assets/img.png)".data = none ∧
    stageRun (mdFullFind (normalizePathL "assets/img.png".data)
        (encodeURIL (normalizePathL "assets/img.png".data)))
        (mdRender (encodeURIL (ensureLeadingSlashL "docs/img.png".data)))
        "![x](./assets/img.png)".data = ("![x](./assets/img.png)".data, false) := by
  decide

/-- Claim C5 (amended): the Markdown-by-path rule of `updateImageLinks`
matches `![alt](T)` when `T` is the raw or percent-encoded full old path
with an optional leading `/` and optional angle brackets — but not with a
leading `./`: a `./`-prefixed target is not matched by the path-based
rule (side conditions: the normalized path and its encoding are nonempty,
do not start with `/`, `<` or a character case-equal to `.`, the path
contains no `]`, and the encoding contains no `)` or `>`). -/
theorem C5_path_rule (oldPath : String) (P Pe : List Char)
    (hP : P = normalizePathL oldPath.data) (hPe : Pe = encodeURIL P)
    (hPne : P ≠ []) (hPene : Pe ≠ [])
    (hPslash : ∀ c, P.head? = some c → ciEq '/' c = false)
    (hPeslash : ∀ c, Pe.head? = some c → ciEq '/' c = false)
    (hPlt : ∀ c, P.head? = some c → c ≠ '<')
    (hPelt : ∀ c, Pe.head? = some c → c ≠ '<')
    (hPdot : ∀ c, P.head? = some c → ciEq c '.' = false)
    (hPedot : ∀ c, Pe.head? = some c → ciEq c '.' = false)
    (hPnb : ∀ c ∈ P, c ≠ ']')
    (hPep : ∀ c ∈ Pe, c ≠ ')' ∧ c ≠ '>') :
    mdFullFind P Pe ('!' :: '[' :: 'a' :: ']' :: '(' :: ('/' :: (P ++ [')']))) =
      some ('!' :: '[' :: 'a' :: ']' :: '(' :: ('/' :: (P ++ [')'])), ['a'], []) ∧
    mdFullFind P Pe ('!' :: '[' :: 'a' :: ']' :: '(' :: (P ++ [')'])) =
      some ('!' :: '[' :: 'a' :: ']' :: '(' :: (P ++ [')']), ['a'], []) ∧
    mdFullFind P Pe ('!' :: '[' :: 'a' :: ']' :: '(' :: ('/' :: (Pe ++ [')']))) =
      some ('!' :: '[' :: 'a' :: ']' :: '(' :: ('/' :: (Pe ++ [')'])), ['a'], []) ∧
    mdFullFind P Pe ('!' :: '[' :: 'a' :: ']' :: '(' :: (Pe ++ [')'])) =
      some ('!' :: '[' :: 'a' :: ']' :: '(' :: (Pe ++ [')']), ['a'], []) ∧
    mdFullFind P Pe ('!' :: '[' :: 'a' :: ']' :: '(' :: ('<' :: '/' :: (P ++ ['>', ')']))) =
      some ('!' :: '[' :: 'a' :: ']' :: '(' :: ('<' :: '/' :: (P ++ ['>', ')'])), ['a'], []) ∧
    mdFullFind P Pe ('!' :: '[' :: 'a' :: ']' :: '(' :: ('.' :: '/' :: (P ++ [')']))) =
      none := by
  refine ⟨?_, ?_, ?_, ?_, ?_, ?_⟩
  · exact mdFindAt_header _ _ (mdFullTail_slash_raw P Pe)
  · exact mdFindAt_header _ _ (mdFullTail_raw P Pe hPne hPslash hPlt)
  · exact mdFindAt_header _ _ (mdFullTail_slash_enc P Pe hPep)
  · exact mdFindAt_header _ _ (mdFullTail_enc P Pe hPene hPeslash hPelt hPep)
  · exact mdFindAt_header _ _ (mdFullTail_angle P Pe)
  · refine mdFindAt_dot_none _ _ (mdFullTail_dot_none P Pe hPne hPene hPdot hPedot) ?_
    intro c hc
    rcases List.mem_cons.mp hc with hc | hc
    · rw [hc]; decide
    rcases List.mem_cons.mp hc with hc | hc
    · rw [hc]; decide
    rcases List.mem_append.mp hc with hc | hc
    · exact hPnb c hc
    · simp at hc
      rw [hc]; decide

/-- Claim C5 witness: the amended theorem instantiated at old path
`assets/img.png`. -/
theorem C5_witness :
    ("assets/img.png".data = normalizePathL "assets/img.png".data ∧
      "assets/img.png".data = encodeURIL "assets/img.png".data) ∧
    mdFullFind "assets/img.png".data "assets/img.png".data
        ('!' :: '[' :: 'a' :: ']' :: '(' :: ('/' :: ("assets/img.png".data ++ [')']))) =
      some ('!' :: '[' :: 'a' :: ']' :: '(' :: ('/' :: ("assets/img.png".data ++ [')'])),
        ['a'], []) ∧
    mdFullFind "assets/img.png".data "assets/img.png".data
        ('!' :: '[' :: 'a' :: ']' :: '(' :: ('.' :: '/' :: ("assets/img.png".data ++ [')']))) =
      none :=
  ⟨⟨by decide, by decide⟩,
    (C5_path_rule "assets/img.png" "assets/img.png".data "assets/img.png".data
      (by decide) (by decide) (by decide) (by decide) (by decide) (by decide)
      (by decide) (by decide) (by decide) (by decide) (by decide) (by decide)).1,
    (C5_path_rule "assets/img.png" "assets/img.png".data "assets/img.png".data
      (by decide) (by decide) (by decide) (by decide) (by decide) (by decide)
      (by decide) (by decide) (by decide) (by decide) (by decide) (by decide)).2.2.2.2.2⟩

/-! ### The wiki-by-name rule anchors the name at the end of the target -/

theorem wikiTryFull_struct (N : List Char) :
    ∀ s y r, wikiTryFull N s = some (y, r) →
      ∃ cn, y = cn ++ [']', ']'] ∧ ciListEq N cn = true ∧ s = cn ++ ']' :: ']' :: r := by
  intro s y r h
  unfold wikiTryFull at h
  cases h1 : ciPrefixC N s with
  | none => simp [h1] at h
  | some x =>
    simp only [h1] at h
    split at h
    · rename_i r2 heq
      simp at h
      obtain ⟨hy, hr⟩ := h
      refine ⟨x.1, by rw [← hy], ciPrefixC_ci N s x.1 x.2 h1, ?_⟩
      have hs := ciPrefixC_sound N s x.1 x.2 h1
      rw [hs, heq, hr]
    · simp at h

theorem ciListEq_no_bracket : ∀ (N cn : List Char), ciListEq N cn = true →
    (∀ c ∈ N, ciEq c ']' = false) → ∀ c ∈ cn, c ≠ ']' := by
  intro N
  induction N with
  | nil =>
    intro cn h hN c hc
    cases cn with
    | nil => simp at hc
    | cons b bs => rw [ciListEq] at h; exact absurd h (by simp)
  | cons n ns ih =>
    intro cn h hN c hc
    cases cn with
    | nil => simp at hc
    | cons b bs =>
      rw [ciListEq] at h
      simp only [Bool.and_eq_true] at h
      obtain ⟨h1, h2⟩ := h
      rcases List.mem_cons.mp hc with hc | hc
      · intro hcb
        have hb : b = ']' := by rw [← hc]; exact hcb
        rw [hb] at h1
        have := hN n (by simp)
        rw [h1] at this
        exact absurd this (by simp)
      · exact ih bs h2 (fun d hd => hN d (by simp [hd])) c hc

theorem wikiGreedy_struct (N : List Char) :
    ∀ z y r, wikiGreedy N z = some (y, r) →
      ∃ w cn, y = w ++ (cn ++ [']', ']']) ∧ (∀ c ∈ w, c ≠ ']') ∧ ciListEq N cn = true := by
  intro z
  induction z with
  | nil =>
    intro y r h
    rw [wikiGreedy] at h
    obtain ⟨cn, hy, hci, hs⟩ := wikiTryFull_struct N [] y r h
    exact ⟨[], cn, by rw [hy]; rfl, by simp, hci⟩
  | cons a t ih =>
    intro y r h
    rw [wikiGreedy] at h
    split at h
    · obtain ⟨cn, hy, hci, hs⟩ := wikiTryFull_struct N _ y r h
      exact ⟨[], cn, by rw [hy]; rfl, by simp, hci⟩
    · rename_i hne
      rcases orElse_eq_some h with hm | ⟨-, hm⟩
      · rcases Option.map_eq_some'.mp hm with ⟨x, hx, hg⟩
        simp only [Prod.mk.injEq] at hg
        obtain ⟨w, cn, hy, hw, hci⟩ := ih x.1 x.2 hx
        refine ⟨a :: w, cn, ?_, ?_, hci⟩
        · rw [← hg.1, hy]; rfl
        · intro c hc
          rcases List.mem_cons.mp hc with hc | hc
          · rw [hc]; exact hne
          · exact hw c hc
      · obtain ⟨cn, hy, hci, hs⟩ := wikiTryFull_struct N _ y r hm
        exact ⟨[], cn, by rw [hy]; rfl, by simp, hci⟩

theorem no_bracket_align : ∀ (a b x y : List Char), (∀ c ∈ a, c ≠ ']') → (∀ c ∈ b, c ≠ ']') →
    a ++ ']' :: x = b ++ ']' :: y → a = b ∧ x = y := by
  intro a
  induction a with
  | nil =>
    intro b x y ha hb h
    cases b with
    | nil => simp at h; exact ⟨rfl, h⟩
    | cons b0 bs =>
      simp at h
      exact absurd h.1.symm (hb b0 (by simp))
  | cons a0 as ih =>
    intro b x y ha hb h
    cases b with
    | nil =>
      simp at h
      exact absurd h.1 (ha a0 (by simp))
    | cons b0 bs =>
      simp at h
      obtain ⟨h1, h2⟩ := h
      obtain ⟨h3, h4⟩ := ih bs x y (fun c hc => ha c (by simp [hc]))
        (fun c hc => hb c (by simp [hc])) h2
      exact ⟨by rw [h1, h3], h4⟩

theorem wikiGreedy_match (N : List Char) (hN : ∀ c ∈ N, ciEq c ']' = false)
    (hNne : N ≠ []) :
    ∀ (s1 r0 : List Char), (∀ c ∈ s1, c ≠ ']') →
      wikiGreedy N (s1 ++ (N ++ ']' :: ']' :: r0)) =
        some (s1 ++ (N ++ [']', ']']), r0) := by
  have hNnb : ∀ c ∈ N, c ≠ ']' := by
    intro c hc heq
    have h2 := hN c hc
    rw [heq, ciEq_refl] at h2
    exact absurd h2 (by simp)
  intro s1
  induction s1 with
  | nil =>
    intro r0 hs1
    simp only [List.nil_append]
    cases hNc : N with
    | nil => exact absurd hNc hNne
    | cons n0 ns =>
      subst hNc
      have hn0 : ¬ n0 = ']' := hNnb n0 (by simp)
      rw [List.cons_append, wikiGreedy, if_neg hn0]
      cases hin : wikiGreedy (n0 :: ns) (ns ++ ']' :: ']' :: r0) with
      | some yr =>
        obtain ⟨w, cn, hy, hw, hci⟩ :=
          wikiGreedy_struct (n0 :: ns) _ yr.1 yr.2 (by rw [hin])
        have hsound := wikiGreedy_sound (n0 :: ns) _ yr.1 yr.2 (by rw [hin])
        rw [hy] at hsound
        have hns_nb : ∀ c ∈ ns, c ≠ ']' := fun c hc => hNnb c (by simp [hc])
        have hcn_nb : ∀ c ∈ cn, c ≠ ']' := ciListEq_no_bracket (n0 :: ns) cn hci hN
        have heq2 : ns ++ ']' :: (']' :: r0) = (w ++ cn) ++ ']' :: (']' :: yr.2) := by
          rw [hsound]; simp
        obtain ⟨hab, hxy⟩ := no_bracket_align ns (w ++ cn) (']' :: r0) (']' :: yr.2)
          hns_nb
          (by
            intro c hc
            rcases List.mem_append.mp hc with hc | hc
            · exact hw c hc
            · exact hcn_nb c hc)
          heq2
        have hr : yr.2 = r0 := by
          injection hxy with h1 h2
          exact h2.symm
        have hy1 : yr.1 = ns ++ [']', ']'] := by
          rw [hy, ← List.append_assoc, ← hab]
        rw [Option.map_some', orElse_some, hy1, hr]
        rfl
      | none =>
        rw [Option.map_none', orElse_none]
        unfold wikiTryFull
        rw [show n0 :: (ns ++ ']' :: ']' :: r0) = (n0 :: ns) ++ (']' :: ']' :: r0) from rfl]
        rw [ciPrefixC_self (n0 :: ns) (']' :: ']' :: r0)]
        rfl
  | cons c cs ih =>
    intro r0 hs1
    have hc : ¬ c = ']' := hs1 c (by simp)
    rw [List.cons_append, wikiGreedy, if_neg hc]
    rw [ih r0 (fun d hd => hs1 d (by simp [hd]))]
    rw [Option.map_some', orElse_some]
    rfl

/-! ### Claim theorems: the wiki-by-name rule -/

/-- Claim C6 (counterexample): with old name `img.png`, the wiki
reference `![[img.png extra]]` contains the raw name as a substring of
its target, yet the Wiki-by-name rule does not match it (the pattern
`!\[\[[^\]]*name\]\]` requires the name immediately before `]]`), no
callback runs, and the text is left unchanged — both in `updateImageLinks`
form and through the `updateImageLinksByFilename` entry point. -/
theorem C6_counterexample :
    wikiByNameFind "img.png".data "![[img.png extra]]".data = none ∧
    stageRun (wikiByNameFind "img.png".data)
        (wikiRender (ensureLeadingSlashL "docs/img.png".data))
        "![[img.png extra]]".data = ("![[img.png extra]]".data, false) ∧
    ("![[" ++ "img.png" ++ " extra" ++ "]]" : String) = "![[img.png extra]]" ∧
    updateImageLinksByFilename "img.png" "docs/img.png"
        [("n.md", "![[img.png extra]]")] = [("n.md", "![[img.png extra]]")] := by
  decide

/-- Claim C6 (amended): the Wiki-by-name rule matches a wiki reference
`![[T]]` exactly when the raw name appears (case-insensitively)
immediately before the closing `]]` — i.e. when `T` ends with the name —
and rewrites the whole reference to `![[abs]]`; a name occurring only in
the interior of the target is not matched, as the counterexample shows. -/
theorem C6_end_anchored (name pre rest abs : List Char)
    (hname : ∀ c ∈ name, ciEq c ']' = false) (hNne : name ≠ [])
    (hpre : ∀ c ∈ pre, c ≠ ']') :
    wikiByNameFind name ('!' :: '[' :: '[' :: (pre ++ (name ++ ']' :: ']' :: rest))) =
      some ('!' :: '[' :: '[' :: (pre ++ (name ++ [']', ']'])), [], rest) ∧
    stageRun (wikiByNameFind name) (wikiRender abs)
        ('!' :: '[' :: '[' :: (pre ++ (name ++ ']' :: ']' :: rest))) =
      (wikiRender abs [] ++ (stageRun (wikiByNameFind name) (wikiRender abs) rest).1,
        true) := by
  have hfind : wikiByNameFind name
      ('!' :: '[' :: '[' :: (pre ++ (name ++ ']' :: ']' :: rest))) =
      some ('!' :: '[' :: '[' :: (pre ++ (name ++ [']', ']'])), [], rest) := by
    have hg := wikiGreedy_match name hname hNne pre rest hpre
    unfold wikiByNameFind wikiFindAt
    simp only [hg]
  refine ⟨hfind, ?_⟩
  unfold stageRun
  rw [show ('!' :: '[' :: '[' :: (pre ++ (name ++ ']' :: ']' :: rest))).length =
    ('[' :: '[' :: (pre ++ (name ++ ']' :: ']' :: rest))).length + 1 from rfl]
  rw [replF]
  simp only [hfind]
  have hfuel := replF_fuel (wikiByNameFind name) (wikiRender abs)
    (wikiByNameFind_sound name)
    (('[' :: '[' :: (pre ++ (name ++ ']' :: ']' :: rest))).length) rest.length rest
    (by simp; omega) (Nat.le_refl _)
  rw [hfuel]

/-- Claim C6 witness: a concrete instance of the amended theorem
(name `img.png`, target `pics/img.png`). -/
theorem C6_witness :
    ((∀ c ∈ "img.png".data, ciEq c ']' = false) ∧ "img.png".data ≠ [] ∧
      (∀ c ∈ "pics/".data, c ≠ ']')) ∧
    wikiByNameFind "img.png".data
        ('!' :: '[' :: '[' :: ("pics/".data ++ ("img.png".data ++ ']' :: ']' :: " tail".data))) =
      some ('!' :: '[' :: '[' :: ("pics/".data ++ ("img.png".data ++ [']', ']'])), [],
        " tail".data) :=
  ⟨⟨by decide, by decide, by decide⟩,
    (C6_end_anchored "img.png".data "pics/".data " tail".data "/docs/img.png".data
      (by decide) (by decide) (by decide)).1⟩

/-! ### Claim theorems: the paste batch and the rename gate -/

theorem pasteOne_success (host : Host) (folderPath : String) (fuel : Nat)
    (st : PasteState) (f : PFile) (np : String)
    (hnp : targetPathFor host folderPath fuel f = some np)
    (hmv : host.moveOk f.path np = true) :
    (pasteOne host folderPath fuel st f).cutFiles = st.cutFiles ∧
    (pasteOne host folderPath fuel st f).docs = pasteRewrite host folderPath fuel st.docs f ∧
    (pasteOne host folderPath fuel st f).moved =
      st.moved ++ [(f.path, (targetPathFor host folderPath fuel f).getD "")] := by
  unfold pasteOne pasteRewrite
  rw [hnp]
  simp [hmv]

theorem pasteOne_fail (host : Host) (folderPath : String) (fuel : Nat)
    (st : PasteState) (f : PFile) (np : String)
    (hnp : targetPathFor host folderPath fuel f = some np)
    (hmv : host.moveOk f.path np = false) :
    (pasteOne host folderPath fuel st f).cutFiles = st.cutFiles ∧
    (pasteOne host folderPath fuel st f).docs = st.docs ∧
    (pasteOne host folderPath fuel st f).moved = st.moved := by
  unfold pasteOne
  rw [hnp]
  simp [hmv]

theorem pasteFold (host : Host) (folderPath : String) (fuel : Nat) :
    ∀ (files : List PFile) (st : PasteState),
      (∀ f ∈ files, (targetPathFor host folderPath fuel f).isSome) →
      (files.foldl (pasteOne host folderPath fuel) st).cutFiles = st.cutFiles ∧
      (files.foldl (pasteOne host folderPath fuel) st).docs =
        (files.filter (moveSucceeds host folderPath fuel)).foldl
          (pasteRewrite host folderPath fuel) st.docs ∧
      (files.foldl (pasteOne host folderPath fuel) st).moved =
        st.moved ++ (files.filter (moveSucceeds host folderPath fuel)).map
          (fun f => (f.path, (targetPathFor host folderPath fuel f).getD "")) := by
  intro files
  induction files with
  | nil => intro st h; simp
  | cons f fs ih =>
    intro st h
    have hf : (targetPathFor host folderPath fuel f).isSome := h f (by simp)
    obtain ⟨np, hnp⟩ := Option.isSome_iff_exists.mp hf
    have hrest : ∀ g ∈ fs, (targetPathFor host folderPath fuel g).isSome :=
      fun g hg => h g (by simp [hg])
    obtain ⟨h1, h2, h3⟩ := ih (pasteOne host folderPath fuel st f) hrest
    rw [List.foldl_cons, List.filter_cons]
    cases hmv : host.moveOk f.path np with
    | true =>
      have hms : moveSucceeds host folderPath fuel f = true := by
        unfold moveSucceeds; rw [hnp]; exact hmv
      obtain ⟨p1, p2, p3⟩ := pasteOne_success host folderPath fuel st f np hnp hmv
      refine ⟨by rw [h1, p1], ?_, ?_⟩
      · rw [h2, p2]
        simp only [hms, if_true]
        rw [List.foldl_cons]
      · rw [h3, p3]
        simp only [hms, if_true]
        rw [List.map_cons, List.append_assoc]
        rfl
    | false =>
      have hms : moveSucceeds host folderPath fuel f = false := by
        unfold moveSucceeds; rw [hnp]; exact hmv
      obtain ⟨p1, p2, p3⟩ := pasteOne_fail host folderPath fuel st f np hnp hmv
      simp only [hms, Bool.false_eq_true, if_false]
      exact ⟨by rw [h1, p1], by rw [h2, p2], by rw [h3, p3]⟩

/-- Claim C9: in a `pasteFiles` batch over the held cut set, a failed
move on one file leaves the other files' moves and link rewrites intact —
the final corpus equals the one obtained by processing exactly the
successfully moved files, the move log appends exactly those moves (no
earlier success is rolled back), and the held set is empty (Idle) after
the batch regardless of per-file failures.  The hypothesis only asks
that each file's destination probe terminates within the given fuel. -/
theorem C9_batch_independence (host : Host) (folderPath : String) (fuel : Nat)
    (st : PasteState)
    (h : ∀ f ∈ st.cutFiles, (targetPathFor host folderPath fuel f).isSome) :
    (pasteFiles host folderPath fuel st).cutFiles = [] ∧
    (pasteFiles host folderPath fuel st).docs =
      (st.cutFiles.filter (moveSucceeds host folderPath fuel)).foldl
        (pasteRewrite host folderPath fuel) st.docs ∧
    (pasteFiles host folderPath fuel st).moved =
      st.moved ++ (st.cutFiles.filter (moveSucceeds host folderPath fuel)).map
        (fun f => (f.path, (targetPathFor host folderPath fuel f).getD "")) := by
  unfold pasteFiles
  split
  · rename_i hemp
    have hnil : st.cutFiles = [] := by
      cases hcf : st.cutFiles with
      | nil => rfl
      | cons a t => rw [hcf] at hemp; simp at hemp
    rw [hnil]
    simp
  · obtain ⟨h1, h2, h3⟩ := pasteFold host folderPath fuel st.cutFiles st h
    exact ⟨rfl, h2, h3⟩

/-- Claim C9 witness: a batch of three files where the move primitive
rejects the second; the first and third are moved and their links
rewritten, the move log holds exactly those two moves, and the tracker
ends Idle. -/
theorem C9_witness :
    (∀ f ∈ [(⟨"pics/a.png", "a.png", "png"⟩ : PFile),
        ⟨"pics/b.png", "b.png", "png"⟩, ⟨"pics/c.png", "c.png", "png"⟩],
      (targetPathFor ⟨fun _ => false, fun _ => false, fun p _ => !(p == "pics/b.png")⟩
        "dst" 5 f).isSome) ∧
    (pasteFiles ⟨fun _ => false, fun _ => false, fun p _ => !(p == "pics/b.png")⟩ "dst" 5
        ⟨[⟨"pics/a.png", "a.png", "png"⟩, ⟨"pics/b.png", "b.png", "png"⟩,
          ⟨"pics/c.png", "c.png", "png"⟩],
        [("n.md", "![[a.png]] ![[b.png]] ![[c.png]]")], [], 0, 0⟩).cutFiles = [] ∧
    (pasteFiles ⟨fun _ => false, fun _ => false, fun p _ => !(p == "pics/b.png")⟩ "dst" 5
        ⟨[⟨"pics/a.png", "a.png", "png"⟩, ⟨"pics/b.png", "b.png", "png"⟩,
          ⟨"pics/c.png", "c.png", "png"⟩],
        [("n.md", "![[a.png]] ![[b.png]] ![[c.png]]")], [], 0, 0⟩).docs =
      [("n.md", "![[/dst/a.png]] ![[b.png]] ![[/dst/c.png]]")] ∧
    (pasteFiles ⟨fun _ => false, fun _ => false, fun p _ => !(p == "pics/b.png")⟩ "dst" 5
        ⟨[⟨"pics/a.png", "a.png", "png"⟩, ⟨"pics/b.png", "b.png", "png"⟩,
          ⟨"pics/c.png", "c.png", "png"⟩],
        [("n.md", "![[a.png]] ![[b.png]] ![[c.png]]")], [], 0, 0⟩).moved =
      [("pics/a.png", "dst/a.png"), ("pics/c.png", "dst/c.png")] := by
  refine ⟨by decide, ?_, ?_, ?_⟩
  · exact (C9_batch_independence _ "dst" 5 _ (by decide)).1
  · rw [(C9_batch_independence _ "dst" 5 _ (by decide)).2.1]; decide
  · rw [(C9_batch_independence _ "dst" 5 _ (by decide)).2.2]; decide

/-- Claim C10: the rename handler rewrites links only when the renamed
file's extension, lowercased, is one of png, jpg, jpeg, gif, bmp, svg,
webp; on any other extension the event leaves every document in the
corpus untouched, and on an image extension it runs `updateImageLinks`
with the event's old and new paths. -/
theorem C10_rename_gate (file : PFile) (oldPath : String) (corpus : List (String × String)) :
    ((["png", "jpg", "jpeg", "gif", "bmp", "svg", "webp"]).contains
        (asciiLower file.extension) = false →
      onRenameEvent file oldPath corpus = corpus) ∧
    ((["png", "jpg", "jpeg", "gif", "bmp", "svg", "webp"]).contains
        (asciiLower file.extension) = true →
      onRenameEvent file oldPath corpus = updateImageLinks oldPath file.path corpus) := by
  constructor
  · intro h
    have hx : isImage file.extension = false := h
    unfold onRenameEvent
    simp [hx]
  · intro h
    have hx : isImage file.extension = true := h
    unfold onRenameEvent
    simp [hx]

/-- Claim C10 witness: a rename of `b.txt` leaves a corpus that even
mentions `b.txt` in a wiki reference untouched, while a rename with
extension `PNG` (uppercase) triggers the rewrite. -/
theorem C10_witness :
    ((["png", "jpg", "jpeg", "gif", "bmp", "svg", "webp"]).contains
        (asciiLower "txt") = false ∧
      onRenameEvent ⟨"docs/b.txt", "b.txt", "txt"⟩ "notes/b.txt"
          [("n.md", "see ![[b.txt]]")] = [("n.md", "see ![[b.txt]]")]) ∧
    ((["png", "jpg", "jpeg", "gif", "bmp", "svg", "webp"]).contains
        (asciiLower "PNG") = true ∧
      onRenameEvent ⟨"docs/i.PNG", "i.PNG", "PNG"⟩ "notes/i.PNG"
          [("n.md", "see ![[i.PNG]]")] =
        updateImageLinks "notes/i.PNG" "docs/i.PNG" [("n.md", "see ![[i.PNG]]")]) :=
  ⟨⟨by decide, (C10_rename_gate ⟨"docs/b.txt", "b.txt", "txt"⟩ "notes/b.txt"
      [("n.md", "see ![[b.txt]]")]).1 (by decide)⟩,
    ⟨by decide, (C10_rename_gate ⟨"docs/i.PNG", "i.PNG", "PNG"⟩ "notes/i.PNG"
      [("n.md", "see ![[i.PNG]]")]).2 (by decide)⟩⟩

end ImageLinkUpdater
